import Mathlib

/-!
Verification of the Launchpad-TinyTroupe core services against their
natural-language specification.

This file shallowly embeds the relevant Python code of
`apps/api/src/services/simulation_service.py`,
`apps/api/src/services/agent_service.py` and
`apps/api/src/services/simulation_control_service.py` as executable Lean
definitions and proves the specification claims about them.

Modelling conventions, used throughout:
* Python strings are `List Char`; `str.strip()` is `pyStrip` (Python ASCII
  whitespace), `len` is `List.length`.
* Python dicts with insertion order are association lists; `dict.get` is an
  assoc-list lookup.
* Python exceptions are `Except`: a function that may raise returns
  `Except String α`, a caught exception is a `match` on the `.error` case.
* Calls into the external TinyTroupe engine (a black box per the spec) are
  either effect-free on the modelled state or passed in as `Except`-valued
  parameters describing the outcome of the engine call.
* Wall-clock values (`datetime.now()` timestamps) and debug printing are
  omitted: no claim mentions them.
* Python floats are modelled as `ℚ` (the claims about them are order/bound
  properties that are exact in either arithmetic).
-/

/-- Python ASCII whitespace, the character class matched by `\s` in the
source's regexes and stripped by `str.strip()` on ASCII text. -/
def pyWs (c : Char) : Bool :=
  c = ' ' || c = '\t' || c = '\n' || c = '\r' || c = '\x0b' || c = '\x0c'

/-- Drop trailing Python whitespace, i.e. the right half of `str.strip()`. -/
def rdropWs (l : List Char) : List Char :=
  (l.reverse.dropWhile pyWs).reverse

/-- Python `str.strip()` on ASCII text: drop leading and trailing whitespace. -/
def pyStrip (l : List Char) : List Char :=
  rdropWs (l.dropWhile pyWs)

theorem dropWhile_head_not (p : Char → Bool) (l : List Char) (c : Char)
    (h : (l.dropWhile p).head? = some c) : p c = false := by
  induction l with
  | nil => simp [List.dropWhile] at h
  | cons a t ih =>
      by_cases hp : p a
      · rw [List.dropWhile_cons_of_pos hp] at h
        exact ih h
      · rw [List.dropWhile_cons_of_neg hp] at h
        simp at h
        subst h
        simpa using hp

theorem rdropWs_append_eq (l : List Char) :
    rdropWs l ++ (l.reverse.takeWhile pyWs).reverse = l := by
  have h : l.reverse.takeWhile pyWs ++ l.reverse.dropWhile pyWs = l.reverse :=
    List.takeWhile_append_dropWhile pyWs l.reverse
  rw [rdropWs, ← List.reverse_append, h, List.reverse_reverse]

theorem rdropWs_getLast_not (l : List Char) (c : Char)
    (h : (rdropWs l).getLast? = some c) : pyWs c = false := by
  rw [rdropWs] at h
  have h2 := List.head?_reverse (l.reverse.dropWhile pyWs).reverse
  rw [List.reverse_reverse] at h2
  exact dropWhile_head_not pyWs l.reverse c (by rw [h2]; exact h)

theorem pyStrip_of_edges (l : List Char)
    (h1 : ∀ c, l.head? = some c → pyWs c = false)
    (h2 : ∀ c, l.getLast? = some c → pyWs c = false) :
    pyStrip l = l := by
  cases l with
  | nil => rfl
  | cons a t =>
      have ha : pyWs a = false := h1 a rfl
      have hdrop : (a :: t).dropWhile pyWs = a :: t :=
        List.dropWhile_cons_of_neg (by simp [ha])
      rw [pyStrip, hdrop]
      rcases h : (a :: t).reverse with _ | ⟨b, r⟩
      · simp at h
      · have hb : (a :: t).getLast? = some b := by
          rw [← List.head?_reverse, h]; rfl
        have hbw : pyWs b = false := h2 b hb
        rw [rdropWs, h, List.dropWhile_cons_of_neg (by simp [hbw]), ← h,
          List.reverse_reverse]

theorem pyStrip_head_not (l : List Char) (c : Char)
    (h : (pyStrip l).head? = some c) : pyWs c = false := by
  have hpre : pyStrip l ++ ((l.dropWhile pyWs).reverse.takeWhile pyWs).reverse
      = l.dropWhile pyWs := rdropWs_append_eq (l.dropWhile pyWs)
  apply dropWhile_head_not pyWs l c
  rw [← hpre]
  rcases hx : pyStrip l with _ | ⟨a, t⟩
  · rw [hx] at h
    simp at h
  · rw [hx] at h
    simp at h
    simp [h]

theorem pyStrip_getLast_not (l : List Char) (c : Char)
    (h : (pyStrip l).getLast? = some c) : pyWs c = false :=
  rdropWs_getLast_not (l.dropWhile pyWs) c h

theorem pyStrip_idem (l : List Char) : pyStrip (pyStrip l) = pyStrip l :=
  pyStrip_of_edges (pyStrip l) (pyStrip_head_not l) (pyStrip_getLast_not l)

/-- Python `' '.join(...)` on a list of strings. -/
def joinSpace : List (List Char) → List Char
  | [] => []
  | [l] => l
  | l :: ls => l ++ ' ' :: joinSpace ls

/-! ## `SimulationService._calculate_engagement_score`

The participant argument is a dict; the method only looks at
`participant.get("responses", [])`.  `RespVal` classifies what that lookup
can produce, as seen by the code: a falsy value (missing key, `[]`, `""`,
`0`, `None`, …), a truthy sized iterable (modelled by the list of
`len(str(r))` of its items, nonempty since it is truthy), or a truthy value
on which `len` raises (e.g. an int), which lands in the bare `except`
returning the default score `0.5`. -/

inductive RespVal where
  | falsy
  | bad
  | items (ls : List Nat)
deriving DecidableEq

/-- Shallow embedding of `SimulationService._calculate_engagement_score`:
`score = 0.0; if responses: score += min(len(responses)*0.2, 1.0);`
`avg = sum(len(str(r)) for r in responses)/len(responses);`
`score += min(avg/100, 0.5); return min(score, 1.0)` with the bare
`except: return 0.5`.  An empty list is falsy in Python, so `items []`
takes the `if`-skipped path like `falsy` does. -/
def calculate_engagement_score (responses : RespVal) : ℚ :=
  match responses with
  | .bad => 1/2
  | .falsy => min (0 : ℚ) 1
  | .items [] => min (0 : ℚ) 1
  | .items (l :: ls) =>
      let n : ℚ := ((l :: ls).length : ℚ)
      let base := min (n * (1/5)) 1
      let avg : ℚ := (((l :: ls).map (fun k : ℕ => (k : ℚ))).sum) / n
      min (base + min (avg / 100) (1/2)) 1

/-- C9: for every participant record — including one with no responses,
empty responses, responses of arbitrary length, or a malformed responses
value — `_calculate_engagement_score` returns a value in `[0, 1]`. -/
theorem engagement_score_in_unit_interval (responses : RespVal) :
    0 ≤ calculate_engagement_score responses ∧
      calculate_engagement_score responses ≤ 1 := by
  cases responses with
  | bad => constructor <;> norm_num [calculate_engagement_score]
  | falsy => constructor <;> norm_num [calculate_engagement_score]
  | items ls =>
      cases ls with
      | nil => constructor <;> norm_num [calculate_engagement_score]
      | cons l t =>
          simp only [calculate_engagement_score]
          have hsum : (0 : ℚ) ≤ ((l :: t).map (fun k : ℕ => (k : ℚ))).sum := by
            apply List.sum_nonneg
            intro x hx
            rcases List.mem_map.mp hx with ⟨k, -, hkx⟩
            rw [← hkx]
            exact Nat.cast_nonneg k
          constructor
          · apply le_min _ (by norm_num)
            apply add_nonneg
            · exact le_min (mul_nonneg (Nat.cast_nonneg _) (by norm_num)) (by norm_num)
            · exact le_min (div_nonneg (div_nonneg hsum (Nat.cast_nonneg _)) (by norm_num))
                (by norm_num)
          · exact min_le_right _ _

/-! ## `SimulationService._extract_results`

The engine calls inside the method — the rapporteur's
`listen_and_act(consolidation_prompt)` and
`extractor.extract_results_from_agent(...)` — are external black-box calls;
their outcomes are passed in as `Except` parameters (`.error` = the call
raised).  `_process_extraction_results` wraps all its analysis in
`try/except` and returns an error dict instead of raising, so its outcome
is likewise an `Except` parameter folded into a total result.  A raised
exception escaping `_extract_results` itself would be a `.error` result of
the embedding; the claim is that this never happens. -/

inductive PyResult where
  | success (data : Nat)
  | withError (msg : String)
deriving DecidableEq

/-- Shallow embedding of `SimulationService._process_extraction_results`:
builds the processed dict, and its own `try/except` downgrades any internal
failure to `{"error": f"Failed to process results: ...", ...}`.  Total: it
never propagates an exception. -/
def process_extraction_results (raw : Nat) (processing : Except String Nat) : PyResult :=
  match processing with
  | .ok d => .success d
  | .error e => .withError ("Failed to process results: " ++ e)

/-- Shallow embedding of `SimulationService._extract_results`.
`agents` carries the agent handles; `rapporteur = agents[0] if agents else
None` and the empty list returns the error dict.  The consolidation
`try/except doc_error` swallows a consolidation failure and proceeds.  The
outer `try/except` turns any exception from the extraction call into
`{"error": f"Failed to extract results: ..."}`. -/
def extract_results (agents : List Nat) (consolidation : Except String Unit)
    (extraction : Except String Nat) (processing : Except String Nat) :
    Except String PyResult :=
  match agents with
  | [] => .ok (.withError "No agents available for results extraction")
  | _ :: _ =>
      -- consolidation failure is caught ("Document consolidation failed,
      -- continuing with extraction") and deliberately not re-raised
      let _consolidated : Bool := match consolidation with
        | .ok _ => true
        | .error _ => false
      match extraction with
      | .error e => .ok (.withError ("Failed to extract results: " ++ e))
      | .ok raw => .ok (process_extraction_results raw processing)

/-- C8: `_extract_results` never raises: for every agent list and every
outcome of the engine's consolidation/extraction calls it returns a result
(`.ok`), carrying an explicit error field when extraction failed or when
the agent list is empty. -/
theorem extract_results_never_raises (agents : List Nat)
    (consolidation : Except String Unit) (extraction : Except String Nat)
    (processing : Except String Nat) :
    (∃ r, extract_results agents consolidation extraction processing = .ok r)
  ∧ (agents = [] → extract_results agents consolidation extraction processing
        = .ok (.withError "No agents available for results extraction"))
  ∧ (∀ m, extraction = .error m →
        extract_results agents consolidation extraction processing
          = .ok (.withError ("Failed to extract results: " ++ m))
      ∨ extract_results agents consolidation extraction processing
          = .ok (.withError "No agents available for results extraction")) := by
  refine ⟨?_, ?_, ?_⟩
  · cases agents with
    | nil => exact ⟨_, rfl⟩
    | cons a t =>
        cases extraction with
        | error e => exact ⟨_, rfl⟩
        | ok raw => exact ⟨_, rfl⟩
  · intro h
    subst h
    rfl
  · intro m hm
    subst hm
    cases agents with
    | nil => exact Or.inr rfl
    | cons a t => exact Or.inl rfl

theorem extract_results_never_raises_witness :
    extract_results [] (.ok ()) (.ok 0) (.ok 0)
      = .ok (.withError "No agents available for results extraction") :=
  (extract_results_never_raises [] (.ok ()) (.ok 0) (.ok 0)).2.1 rfl

/-! ## `AgentService.load_agent` and the session-scoped agent cache

`AgentRegistry.load_agent` constructs a fresh `TinyPerson` from the agent's
specification file on every call; freshness of the Python object is
modelled by an allocation counter `nextHandle`, so two distinct
constructions always yield distinct handles.  The registry's catalog
(`available_agents`) is the fixed dict of `agent_service.py`; loading an
unknown id raises `ValueError` (`.error`).  The file-system read is an
external effect assumed to succeed for catalogued agents (its failure also
raises `ValueError`, which no claim depends on).
`AgentService._session_cache : {session_id: {agent_id: agent}}` is an
association list in insertion order. -/

abbrev Handle := Nat

structure AgentSvcState where
  sessionCache : List (String × List (String × Handle))
  nextHandle : Handle
deriving DecidableEq

/-- The keys of `AgentRegistry.available_agents`. -/
def availableAgents : List String :=
  ["lisa", "oscar", "marcos", "tony_parker", "kenny_pickett", "wayne_gretzky",
   "carey_price", "eric_lamaze", "brian_griese", "channing_frye",
   "tessa_virtue", "jason_arnott", "derrick_johnson", "brandon_mcmanus",
   "real_estate"]

/-- Shallow embedding of `AgentRegistry.load_agent`: unknown id raises
`ValueError`; otherwise a fresh agent object is constructed from the
specification file (fresh handle = current allocation counter). -/
def registry_load_agent (st : AgentSvcState) (agentId : String) :
    Except String (Handle × AgentSvcState) :=
  if agentId ∈ availableAgents then
    .ok (st.nextHandle, { st with nextHandle := st.nextHandle + 1 })
  else
    .error ("Agent '" ++ agentId ++ "' not found")

/-- First-match assoc-list lookup, the dict lookup primitive. -/
def lookupA {α : Type} (l : List (String × α)) (k : String) : Option α :=
  match l with
  | [] => none
  | p :: rest => if p.1 = k then some p.2 else lookupA rest k

/-- Lookup `self._session_cache[session_id][agent_id]` (first-match
assoc-list semantics, like a Python dict with unique keys). -/
def cacheLookup (cache : List (String × List (String × Handle)))
    (sid aid : String) : Option Handle :=
  match cache with
  | [] => none
  | e :: rest => if e.1 = sid then lookupA e.2 aid else cacheLookup rest sid aid

/-- The effect of `self._session_cache[session_id][agent_id] = agent` (with
the `if session_id not in self._session_cache: ... = {}` init): update the
session's dict in place, appending the new agent key in insertion order. -/
def cacheInsert (cache : List (String × List (String × Handle)))
    (sid aid : String) (h : Handle) : List (String × List (String × Handle)) :=
  match cache with
  | [] => [(sid, [(aid, h)])]
  | e :: rest =>
      if e.1 = sid then (e.1, e.2 ++ [(aid, h)]) :: rest
      else e :: cacheInsert rest sid aid h

/-- Shallow embedding of `AgentService.load_agent`: with a falsy
`unique_suffix` (`None` or `""`) the registry is used directly (cache
bypassed); otherwise the suffix is the session id, a cached agent is
returned unchanged on a hit, and on a miss a fresh agent is loaded and
cached under `(session_id, agent_id)`. -/
def load_agent (st : AgentSvcState) (agentId : String)
    (uniqueSuffix : Option String) : Except String (Handle × AgentSvcState) :=
  if uniqueSuffix = none ∨ uniqueSuffix = some "" then
    registry_load_agent st agentId
  else
    let sid := uniqueSuffix.getD ""
    match cacheLookup st.sessionCache sid agentId with
    | some h => .ok (h, st)
    | none =>
        match registry_load_agent st agentId with
        | .error e => .error e
        | .ok (h, st1) =>
            .ok (h, { st1 with sessionCache := cacheInsert st1.sessionCache sid agentId h })

/-- Well-formedness of the service state: every cached handle was allocated
(below the counter), and handles cached under different cache entries are
distinct.  It holds for the initial empty state and is maintained by
`load_agent`, which only caches freshly allocated handles. -/
def agentCacheWF (st : AgentSvcState) : Prop :=
  (∀ e ∈ st.sessionCache, ∀ p ∈ e.2, p.2 < st.nextHandle) ∧
  st.sessionCache.Pairwise (fun e₁ e₂ => ∀ p ∈ e₁.2, ∀ q ∈ e₂.2, p.2 ≠ q.2)

theorem lookupA_append_none {α : Type} (l₁ l₂ : List (String × α)) (k : String)
    (h : lookupA l₁ k = none) : lookupA (l₁ ++ l₂) k = lookupA l₂ k := by
  induction l₁ with
  | nil => rfl
  | cons p rest ih =>
      rw [lookupA] at h
      by_cases hp : p.1 = k
      · rw [if_pos hp] at h; cases h
      · rw [if_neg hp] at h
        rw [List.cons_append, lookupA, if_neg hp]
        exact ih h

theorem cacheLookup_cacheInsert_same
    (cache : List (String × List (String × Handle))) (sid aid : String)
    (h : Handle) (hmiss : cacheLookup cache sid aid = none) :
    cacheLookup (cacheInsert cache sid aid h) sid aid = some h := by
  induction cache with
  | nil => simp [cacheInsert, cacheLookup, lookupA]
  | cons e rest ih =>
      rw [cacheLookup] at hmiss
      by_cases hsid : e.1 = sid
      · rw [if_pos hsid] at hmiss
        rw [cacheInsert, if_pos hsid, cacheLookup, if_pos hsid,
          lookupA_append_none e.2 [(aid, h)] aid hmiss, lookupA, if_pos rfl]
      · rw [if_neg hsid] at hmiss
        rw [cacheInsert, if_neg hsid, cacheLookup, if_neg hsid]
        exact ih hmiss

theorem lookupA_mem {α : Type} (l : List (String × α)) (k : String) (v : α)
    (h : lookupA l k = some v) : ∃ p ∈ l, p.1 = k ∧ p.2 = v := by
  induction l with
  | nil => cases h
  | cons p rest ih =>
      rw [lookupA] at h
      by_cases hp : p.1 = k
      · rw [if_pos hp] at h
        simp at h
        exact ⟨p, List.mem_cons_self p rest, hp, h⟩
      · rw [if_neg hp] at h
        obtain ⟨q, hq, hq1, hq2⟩ := ih h
        exact ⟨q, List.mem_cons_of_mem p hq, hq1, hq2⟩

theorem cacheLookup_mem (cache : List (String × List (String × Handle)))
    (sid aid : String) (h : Handle)
    (hl : cacheLookup cache sid aid = some h) :
    ∃ e ∈ cache, e.1 = sid ∧ ∃ p ∈ e.2, p.1 = aid ∧ p.2 = h := by
  induction cache with
  | nil => cases hl
  | cons e rest ih =>
      rw [cacheLookup] at hl
      by_cases hsid : e.1 = sid
      · rw [if_pos hsid] at hl
        obtain ⟨p, hp, hp1, hp2⟩ := lookupA_mem e.2 aid h hl
        exact ⟨e, List.mem_cons_self e rest, hsid, p, hp, hp1, hp2⟩
      · rw [if_neg hsid] at hl
        obtain ⟨e', he', he'1, hrest⟩ := ih hl
        exact ⟨e', List.mem_cons_of_mem e he', he'1, hrest⟩

/-- C1: within one session `S` (a nonempty unique suffix), repeated
`AgentService.load_agent(K, S)` calls return the identical cached handle
with the state unchanged, and a load under session `S` never returns a
handle cached under a different session `S₀` of a well-formed state. -/
theorem load_agent_identity_and_session_isolation
    (st : AgentSvcState) (K S : String) (hS : S ≠ "")
    (hWF : agentCacheWF st) :
    (∀ h st₁, load_agent st K (some S) = .ok (h, st₁) →
        load_agent st₁ K (some S) = .ok (h, st₁))
  ∧ (∀ S₀ K₀ h₀ h st₁, cacheLookup st.sessionCache S₀ K₀ = some h₀ →
        S₀ ≠ S → load_agent st K (some S) = .ok (h, st₁) → h ≠ h₀) := by
  have hcond : ¬((some S : Option String) = none ∨ (some S : Option String) = some "") := by
    simp [hS]
  constructor
  · intro h st₁ hload
    rw [load_agent, if_neg hcond] at hload
    simp only [Option.getD_some] at hload
    rcases hlk : cacheLookup st.sessionCache S K with _ | hc
    · rw [hlk] at hload
      rw [registry_load_agent] at hload
      by_cases hKa : K ∈ availableAgents
      · rw [if_pos hKa] at hload
        simp only [Except.ok.injEq, Prod.mk.injEq] at hload
        obtain ⟨hh, hst⟩ := hload
        rw [load_agent, if_neg hcond]
        simp only [Option.getD_some]
        have hlk2 : cacheLookup st₁.sessionCache S K = some h := by
          rw [← hst, ← hh]
          exact cacheLookup_cacheInsert_same st.sessionCache S K st.nextHandle hlk
        rw [hlk2]
      · rw [if_neg hKa] at hload
        cases hload
    · rw [hlk] at hload
      simp only [Except.ok.injEq, Prod.mk.injEq] at hload
      obtain ⟨hh, hst⟩ := hload
      rw [load_agent, if_neg hcond]
      simp only [Option.getD_some]
      rw [← hst, hlk, hh]
  · intro S₀ K₀ h₀ h st₁ hc₀ hne hload
    rw [load_agent, if_neg hcond] at hload
    simp only [Option.getD_some] at hload
    rcases hlk : cacheLookup st.sessionCache S K with _ | hc
    · rw [hlk] at hload
      rw [registry_load_agent] at hload
      by_cases hKa : K ∈ availableAgents
      · rw [if_pos hKa] at hload
        simp only [Except.ok.injEq, Prod.mk.injEq] at hload
        obtain ⟨hh, _⟩ := hload
        obtain ⟨e₀, he₀, _, p₀, hp₀, _, hp₀2⟩ := cacheLookup_mem _ _ _ _ hc₀
        have hlt : h₀ < st.nextHandle := by
          rw [← hp₀2]; exact hWF.1 e₀ he₀ p₀ hp₀
        rw [← hh]
        exact fun hcontra => absurd hlt (by rw [hcontra]; exact lt_irrefl _)
      · rw [if_neg hKa] at hload
        cases hload
    · rw [hlk] at hload
      simp only [Except.ok.injEq, Prod.mk.injEq] at hload
      obtain ⟨hh, _⟩ := hload
      obtain ⟨e₀, he₀, he₀sid, p₀, hp₀, _, hp₀2⟩ := cacheLookup_mem _ _ _ _ hc₀
      obtain ⟨e₁, he₁, he₁sid, p₁, hp₁, _, hp₁2⟩ := cacheLookup_mem _ _ _ _ hlk
      have hRsymm : Symmetric (fun e₁ e₂ : String × List (String × Handle) =>
          ∀ p ∈ e₁.2, ∀ q ∈ e₂.2, p.2 ≠ q.2) := by
        intro a b hab p hp q hq
        exact (hab q hq p hp).symm
      have hdiff : e₀ ≠ e₁ := by
        intro hcontra
        apply hne
        rw [← he₀sid, ← he₁sid, hcontra]
      have := hWF.2.forall hRsymm he₀ he₁ hdiff p₀ hp₀ p₁ hp₁
      rw [← hh, ← hp₁2, ← hp₀2]
      exact fun hcontra => this (hcontra ▸ rfl)

def wSt : AgentSvcState := ⟨[("sA", [("oscar", 0)])], 1⟩

def wSt1 : AgentSvcState := ⟨[("sA", [("oscar", 0)]), ("s2", [("lisa", 1)])], 2⟩

theorem load_agent_identity_and_session_isolation_witness :
    (("s2" : String) ≠ "" ∧ agentCacheWF wSt ∧
      cacheLookup wSt.sessionCache "sA" "oscar" = some 0 ∧
      load_agent wSt "lisa" (some "s2") = .ok (1, wSt1)) ∧ (1 : Handle) ≠ 0 :=
  ⟨⟨by decide, ⟨by decide, by decide⟩, rfl, rfl⟩,
    (load_agent_identity_and_session_isolation wSt "lisa" "s2" (by decide)
      ⟨by decide, by decide⟩).2 "sA" "oscar" 0 1 wSt1 rfl (by decide) rfl⟩

/-- C10: with no `unique_suffix` (`None` or empty), `AgentService.load_agent`
bypasses the session cache entirely: each call loads a fresh handle from
the specification file, two suffix-less calls return distinct handles, and
no session cache entry is read or written. -/
theorem load_agent_no_suffix_bypasses_cache
    (st : AgentSvcState) (K : String) (s : Option String)
    (hs : s = none ∨ s = some "") (hK : K ∈ availableAgents) :
    load_agent st K s = .ok (st.nextHandle, ⟨st.sessionCache, st.nextHandle + 1⟩)
  ∧ (∀ h₁ st₁ h₂ st₂, load_agent st K s = .ok (h₁, st₁) →
        load_agent st₁ K s = .ok (h₂, st₂) →
        h₁ ≠ h₂ ∧ st₁.sessionCache = st.sessionCache ∧
          st₂.sessionCache = st.sessionCache) := by
  have hfirst : load_agent st K s = .ok (st.nextHandle, ⟨st.sessionCache, st.nextHandle + 1⟩) := by
    rw [load_agent, if_pos hs, registry_load_agent, if_pos hK]
  refine ⟨hfirst, ?_⟩
  intro h₁ st₁ h₂ st₂ h1 h2
  rw [hfirst] at h1
  simp only [Except.ok.injEq, Prod.mk.injEq] at h1
  obtain ⟨hh₁, hst₁⟩ := h1
  have hsecond : load_agent st₁ K s
      = .ok (st₁.nextHandle, ⟨st₁.sessionCache, st₁.nextHandle + 1⟩) := by
    rw [load_agent, if_pos hs, registry_load_agent, if_pos hK]
  rw [hsecond] at h2
  simp only [Except.ok.injEq, Prod.mk.injEq] at h2
  obtain ⟨hh₂, hst₂⟩ := h2
  constructor
  · rw [← hh₁, ← hh₂, ← hst₁]
    exact fun hcontra => absurd hcontra (Nat.ne_of_lt (Nat.lt_succ_self _))
  · constructor
    · rw [← hst₁]
    · rw [← hst₂, ← hst₁]

theorem load_agent_no_suffix_bypasses_cache_witness :
    load_agent wSt "lisa" none = .ok (1, ⟨[("sA", [("oscar", 0)])], 2⟩) :=
  (load_agent_no_suffix_bypasses_cache wSt "lisa" none (Or.inl rfl) (by decide)).1

/-! ## `SimulationControlService` (session lifecycle)

`active_sessions` and `session_checkpoints` are insertion-ordered dicts
(assoc lists).  The engine-side `control.begin/checkpoint/end` calls are
external black-box calls with no effect on the modelled service state; in
particular nothing in `end_session` removes the session from
`active_sessions` (`list_sessions(include_ended=True)` deliberately still
lists COMPLETED sessions).  `uuid4` ids are passed in as arguments, and the
outcome of the checkpoint-metadata file write (the inner `try/except` whose
failure only logs a warning) is the `writeOk` argument. -/

inductive SimStatus where
  | created
  | running
  | paused
  | completed
  | failed
  | stopped
deriving DecidableEq

inductive CkStatus where
  | created
  | saved
  | restored
  | failed
deriving DecidableEq

structure CtrlSession where
  status : SimStatus
  cacheFile : Option String
  interactionCount : Nat
deriving DecidableEq

structure Checkpoint where
  name : String
  sessionId : String
  status : CkStatus
  filePath : Option String
deriving DecidableEq

structure CtrlState where
  activeSessions : List (String × CtrlSession)
  sessionCheckpoints : List (String × List Checkpoint)
deriving DecidableEq

inductive SvcError where
  | notFound (msg : String)
deriving DecidableEq

/-- Python truthiness of an optional string (`if x:`): `None` and `""` are
falsy. -/
def optTruthy : Option String → Bool
  | none => false
  | some s => s ≠ ""

/-- In-place value update at a key of an insertion-ordered dict. -/
def updateA {α : Type} (l : List (String × α)) (k : String) (v : α) :
    List (String × α) :=
  match l with
  | [] => []
  | p :: rest => if p.1 = k then (p.1, v) :: rest else p :: updateA rest k v

/-- The effect of `self.session_checkpoints[sid].append(c)` with the
`if sid not in self.session_checkpoints: ... = []` guard. -/
def appendCk (l : List (String × List Checkpoint)) (k : String) (c : Checkpoint) :
    List (String × List Checkpoint) :=
  match l with
  | [] => [(k, [c])]
  | p :: rest => if p.1 = k then (p.1, p.2 ++ [c]) :: rest else p :: appendCk rest k c

def cacheDirectory : String := "./cache"

/-- Request model of `SimulationSessionRequest`: `session_name` is a
required `str` (which pydantic allows to be empty), `cache_file` optional. -/
structure SessionRequest where
  sessionName : String
  cacheFile : Option String
deriving DecidableEq

/-- Shallow embedding of `SimulationControlService.begin_session`: choose
the cache file by truthiness of `request.cache_file` and then
`request.session_name`, call `control.begin` (external), and register a
CREATED session with an empty checkpoint list. -/
def begin_session (st : CtrlState) (sid : String) (req : SessionRequest) :
    CtrlState × String :=
  let cf : Option String :=
    if optTruthy req.cacheFile then
      some (cacheDirectory ++ "/" ++ req.cacheFile.getD "")
    else if req.sessionName ≠ "" then
      some (cacheDirectory ++ "/" ++ req.sessionName ++ "_" ++ sid ++ ".json")
    else none
  ({ activeSessions := st.activeSessions ++ [(sid, ⟨SimStatus.created, cf, 0⟩)],
     sessionCheckpoints := st.sessionCheckpoints ++ [(sid, [])] }, sid)

/-- `os.path.splitext(p)[0]` for ordinary names: drop the part of the last
path component from its last dot on, if it has one.  (The leading-dot
special case of `splitext` cannot arise for the `*.json` paths built by
`begin_session`.) -/
def splitextBase (p : String) : String :=
  let rev := p.toList.reverse
  let baseRev := rev.takeWhile (fun c => c ≠ '/')
  if baseRev.contains '.' then
    ((rev.dropWhile (fun c => c ≠ '.')).drop 1).reverse.asString
  else p

structure CheckpointRequest where
  sessionId : String
  checkpointName : String
deriving DecidableEq

/-- Shallow embedding of `SimulationControlService.create_checkpoint`:
unknown session raises `ValueError(f"Session ... not found")`; otherwise
`control.checkpoint` (external) runs, a checkpoint record is created with
status CREATED, upgraded to SAVED only when the session has a truthy cache
file and the metadata write succeeds (`writeOk`), appended to the
session's checkpoint list, and returned. -/
def create_checkpoint (st : CtrlState) (req : CheckpointRequest) (ckId : String)
    (writeOk : Bool) : Except SvcError (Checkpoint × CtrlState) :=
  match lookupA st.activeSessions req.sessionId with
  | none => .error (.notFound ("Session " ++ req.sessionId ++ " not found"))
  | some session =>
      let name := if req.checkpointName = "" then
          "checkpoint_" ++ (ckId.toList.take 8).asString
        else req.checkpointName
      let file : Option String :=
        if optTruthy session.cacheFile then
          some (splitextBase (session.cacheFile.getD "") ++ "_checkpoint_" ++
            name ++ ".json")
        else none
      let status := if optTruthy file then
          (if writeOk then CkStatus.saved else CkStatus.created)
        else CkStatus.created
      let ck : Checkpoint := ⟨name, req.sessionId, status, file⟩
      .ok (ck, { st with
        sessionCheckpoints := appendCk st.sessionCheckpoints req.sessionId ck })

structure EndSummary where
  sessionId : String
  statusStr : String
  totalInteractions : Nat
  checkpointsCreated : Nat
  cacheFile : Option String
deriving DecidableEq

/-- Shallow embedding of `SimulationControlService.end_session`: unknown
session raises `ValueError(f"Session ... not found")`; otherwise
`control.end()` (external) runs, the session's status is set to COMPLETED
— the session stays in `active_sessions` — and a summary is returned. -/
def end_session (st : CtrlState) (sid : String) :
    Except SvcError (EndSummary × CtrlState) :=
  match lookupA st.activeSessions sid with
  | none => .error (.notFound ("Session " ++ sid ++ " not found"))
  | some session =>
      let session' := { session with status := SimStatus.completed }
      .ok ({ sessionId := sid, statusStr := "ended",
             totalInteractions := session.interactionCount,
             checkpointsCreated := ((lookupA st.sessionCheckpoints sid).getD []).length,
             cacheFile := session.cacheFile },
           { st with activeSessions := updateA st.activeSessions sid session' })

theorem lookupA_updateA {α : Type} (l : List (String × α)) (k : String)
    (v v' : α) (h : lookupA l k = some v) :
    lookupA (updateA l k v') k = some v' := by
  induction l with
  | nil => cases h
  | cons p rest ih =>
      rw [lookupA] at h
      by_cases hp : p.1 = k
      · rw [updateA, if_pos hp, lookupA, if_pos hp]
      · rw [if_neg hp] at h
        rw [updateA, if_neg hp, lookupA, if_neg hp]
        exact ih h

def c6St0 : CtrlState := (begin_session ⟨[], []⟩ "s1" ⟨"demo", none⟩).1

def c6St1 : CtrlState :=
  ⟨[("s1", ⟨SimStatus.completed, some "./cache/demo_s1.json", 0⟩)], [("s1", [])]⟩

def c6Summary : EndSummary :=
  ⟨"s1", "ended", 0, 0, some "./cache/demo_s1.json"⟩

/-- C6 counterexample: ending the same session twice does not produce a
not-found error on the second call — `end_session` never removes the
session from `active_sessions`, so the second call finds it (status
COMPLETED) and succeeds again. -/
theorem end_session_twice_second_call_succeeds :
    end_session c6St0 "s1" = .ok (c6Summary, c6St1) ∧
      end_session c6St1 "s1" = .ok (c6Summary, c6St1) := by
  constructor <;> rfl

/-- C6 amended: after a successful `end_session`, the session is still
registered (with status COMPLETED), so a second `end_session` call with
the same id does not fail with a not-found error: it finds the session and
returns a summary again (the engine-side `control.end()` being external to
the service registries). -/
theorem end_session_not_idempotent_notFound (st : CtrlState) (sid : String)
    (summary : EndSummary) (st₁ : CtrlState)
    (h : end_session st sid = .ok (summary, st₁)) :
    (∃ s, lookupA st₁.activeSessions sid = some s ∧
        s.status = SimStatus.completed)
  ∧ (∃ r₂ st₂, end_session st₁ sid = .ok (r₂, st₂)) := by
  rw [end_session] at h
  rcases hlk : lookupA st.activeSessions sid with _ | session
  · rw [hlk] at h; cases h
  · rw [hlk] at h
    simp only [Except.ok.injEq, Prod.mk.injEq] at h
    obtain ⟨-, hst⟩ := h
    have hlk1 : lookupA st₁.activeSessions sid
        = some { session with status := SimStatus.completed } := by
      rw [← hst]
      exact lookupA_updateA st.activeSessions sid session _ hlk
    refine ⟨⟨_, hlk1, rfl⟩, ?_⟩
    rw [end_session, hlk1]
    exact ⟨_, _, rfl⟩

theorem end_session_not_idempotent_notFound_witness :
    (∃ s, lookupA c6St1.activeSessions "s1" = some s ∧
        s.status = SimStatus.completed)
  ∧ (∃ r₂ st₂, end_session c6St1 "s1" = .ok (r₂, st₂)) :=
  end_session_not_idempotent_notFound c6St0 "s1" c6Summary c6St1 rfl

def c7St : CtrlState := (begin_session ⟨[], []⟩ "s1" ⟨"", none⟩).1

def c7Ck : Checkpoint := ⟨"cp", "s1", CkStatus.created, none⟩

/-- C7 counterexample: for a known session begun with an empty session name
and no cache file, `create_checkpoint` succeeds but returns a checkpoint
whose status is CREATED, not SAVED — the SAVED upgrade only happens when
the session has a cache file and the metadata write succeeds. -/
theorem create_checkpoint_known_session_not_saved :
    create_checkpoint c7St ⟨"s1", "cp"⟩ "ck1" true
      = .ok (c7Ck, ⟨c7St.activeSessions, [("s1", [c7Ck])]⟩)
  ∧ c7Ck.status ≠ CkStatus.saved := by
  constructor
  · rfl
  · decide

theorem checkpoint_file_ne_empty (x nm : String) :
    (x ++ "_checkpoint_" ++ nm ++ ".json") ≠ "" := by
  intro hEq
  have hl := congrArg String.length hEq
  rw [String.length_append, String.length_append, String.length_append] at hl
  have h1 : ("_checkpoint_" : String).length = 12 := rfl
  have h2 : (".json" : String).length = 5 := rfl
  have h3 : ("" : String).length = 0 := rfl
  omega

/-- C7 amended: `create_checkpoint` fails with a not-found error exactly
when the session id is unknown; for a known session it returns a
checkpoint whose status is SAVED when the session has a (truthy) cache
file and the metadata write succeeds, and CREATED otherwise. -/
theorem create_checkpoint_notFound_and_status (st : CtrlState)
    (req : CheckpointRequest) (ckId : String) (writeOk : Bool) :
    (lookupA st.activeSessions req.sessionId = none →
      create_checkpoint st req ckId writeOk
        = .error (.notFound ("Session " ++ req.sessionId ++ " not found")))
  ∧ (∀ s, lookupA st.activeSessions req.sessionId = some s →
      ∃ ck st', create_checkpoint st req ckId writeOk = .ok (ck, st') ∧
        ck.status = (if optTruthy s.cacheFile && writeOk then CkStatus.saved
          else CkStatus.created)) := by
  constructor
  · intro h
    rw [create_checkpoint, h]
  · intro s hs
    rw [create_checkpoint, hs]
    refine ⟨_, _, rfl, ?_⟩
    dsimp only
    rcases hcf : s.cacheFile with _ | cf
    · simp [optTruthy]
    · by_cases hcfe : cf = ""
      · simp [optTruthy, hcfe]
      · have hne := checkpoint_file_ne_empty (splitextBase cf)
          (if req.checkpointName = "" then
            "checkpoint_" ++ (ckId.toList.take 8).asString
          else req.checkpointName)
        simp only [optTruthy, Option.getD_some, if_neg hcfe]
        simp [hne, hcfe]
        cases writeOk <;> simp
        exact hne

theorem create_checkpoint_notFound_and_status_witness :
    create_checkpoint ⟨[], []⟩ ⟨"sX", "cp"⟩ "ck1" true
      = .error (.notFound ("Session " ++ "sX" ++ " not found")) :=
  (create_checkpoint_notFound_and_status ⟨[], []⟩ ⟨"sX", "cp"⟩ "ck1" true).1 rfl

/-! ## `SimulationService._parse_actions_chronologically` (structured path)

`actions_over_time` is a list of per-round entries; each entry is either a
dict `{agent_name: agent_actions}` (in insertion order) or not a dict (then
skipped, `RoundData = none`); each `agent_actions` is either a list or not
(skipped); each element of that list is either not a dict, a dict without
an `'action'` key, or one with an `'action'` value that is itself either
not a dict or a dict with optional `'type'`/`'content'` fields.  `'content'`
values, when present, are strings (a non-string `'content'` would make the
untried `.strip()` raise, outside every claim).  An `InteractionRec` keeps
the fields the claims mention; the constant `type`/`action_type` fields and
the `datetime.now()` timestamp of the emitted dicts are omitted. -/

inductive PyAction where
  | notDict
  | dict (typeField : Option String) (contentField : Option (List Char))
deriving DecidableEq

inductive ActionEntry where
  | notDict
  | noActionKey
  | withAction (a : PyAction)
deriving DecidableEq

abbrev RoundData := Option (List (String × Option (List ActionEntry)))

structure InteractionRec where
  round : Nat
  agent : List Char
  content : List Char
deriving DecidableEq

def isLowerHexDigit (c : Char) : Bool :=
  ('a' ≤ c && c ≤ 'f') || ('0' ≤ c && c ≤ '9')

/-- Shallow embedding of `re.sub(r'_[a-f0-9]{8}$', '', agent_name)`: strip
a trailing underscore-plus-8-lowercase-hex collision suffix, if present. -/
def cleanAgentName (name : List Char) : List Char :=
  match name.reverse with
  | c1 :: c2 :: c3 :: c4 :: c5 :: c6 :: c7 :: c8 :: '_' :: rest =>
      if isLowerHexDigit c1 && isLowerHexDigit c2 && isLowerHexDigit c3 &&
         isLowerHexDigit c4 && isLowerHexDigit c5 && isLowerHexDigit c6 &&
         isLowerHexDigit c7 && isLowerHexDigit c8 then
        rest.reverse
      else name
  | _ => name

/-- One round of `_parse_actions_chronologically`: collect, over the round
dict's agents in order and each agent's action list in order, the TALK
actions whose stripped content is longer than 10 characters, as records of
the given round number with the collision suffix stripped from the agent
name. -/
def roundTalks (entries : List (String × Option (List ActionEntry)))
    (rnd : Nat) : List InteractionRec :=
  (entries.map (fun e =>
    match e.2 with
    | none => []
    | some acts => acts.filterMap (fun ad =>
        match ad with
        | ActionEntry.withAction (PyAction.dict (some t) c?) =>
            if t = "TALK" then
              if 10 < (pyStrip (c?.getD [])).length then
                some ⟨rnd, cleanAgentName e.1.toList, pyStrip (c?.getD [])⟩
              else none
            else none
        | _ => none))).flatten

/-- The `for round_number, round_data in enumerate(actions_over_time, 1)`
loop: non-dict rounds contribute nothing but still advance the round
number; each round's talks are appended after the previous rounds'. -/
def roundRecs (rd : RoundData) (k : Nat) : List InteractionRec :=
  match rd with
  | none => []
  | some entries => roundTalks entries k

def parseRounds : Nat → List RoundData → List InteractionRec
  | _, [] => []
  | k, rd :: rds => roundRecs rd k ++ parseRounds (k + 1) rds

/-- Shallow embedding of `SimulationService._parse_actions_chronologically`. -/
def parse_actions_chronologically (aot : List RoundData) : List InteractionRec :=
  parseRounds 1 aot

theorem roundTalks_mem_spec (entries : List (String × Option (List ActionEntry)))
    (k : Nat) (r : InteractionRec) (hr : r ∈ roundTalks entries k) :
    r.round = k ∧ 10 < (pyStrip r.content).length := by
  rw [roundTalks] at hr
  rcases List.mem_flatten.mp hr with ⟨l, hl, hrl⟩
  rcases List.mem_map.mp hl with ⟨e, -, rfl⟩
  rcases he : e.2 with _ | acts
  · rw [he] at hrl; cases hrl
  · rw [he] at hrl
    rcases List.mem_filterMap.mp hrl with ⟨ad, -, had⟩
    rcases ad with _ | _ | a
    · cases had
    · cases had
    · rcases a with _ | ⟨t?, c?⟩
      · cases had
      · rcases t? with _ | t
        · cases had
        · simp only at had
          by_cases ht : t = "TALK"
          · rw [if_pos ht] at had
            by_cases hlen : 10 < (pyStrip (c?.getD [])).length
            · rw [if_pos hlen] at had
              simp only [Option.some.injEq] at had
              rw [← had]
              exact ⟨rfl, by rw [pyStrip_idem]; exact hlen⟩
            · rw [if_neg hlen] at had; cases had
          · rw [if_neg ht] at had; cases had

theorem parseRounds_spec (aot : List RoundData) (k : Nat) :
    (∀ r ∈ parseRounds k aot, k ≤ r.round ∧ r.round < k + aot.length)
  ∧ (parseRounds k aot).Pairwise (fun a b => a.round ≤ b.round) := by
  induction aot generalizing k with
  | nil => simp [parseRounds]
  | cons rd rds ih =>
      rw [parseRounds]
      have hseg : ∀ r ∈ roundRecs rd k, r.round = k := by
        rcases rd with _ | entries
        · intro r hr; cases hr
        · intro r hr; exact (roundTalks_mem_spec entries k r hr).1
      constructor
      · intro r hr
        rcases List.mem_append.mp hr with h | h
        · have := hseg r h
          simp only [List.length_cons]
          omega
        · have := (ih (k + 1)).1 r h
          simp only [List.length_cons]
          omega
      · rw [List.pairwise_append]
        refine ⟨?_, (ih (k + 1)).2, ?_⟩
        · apply List.pairwise_of_forall_mem_list
          intro a ha b hb
          rw [hseg a ha, hseg b hb]
        · intro a ha b hb
          have h1 := hseg a ha
          have h2 := (ih (k + 1)).1 b hb
          omega

/-- C2: on every structured action stream of `R` round entries, the records
emitted by `_parse_actions_chronologically` have round numbers in `[1, R]`
and the round numbers are non-decreasing in emission order. -/
theorem structured_rounds_bounded_and_monotone (aot : List RoundData) :
    (∀ r ∈ parse_actions_chronologically aot,
        1 ≤ r.round ∧ r.round ≤ aot.length)
  ∧ (parse_actions_chronologically aot).Pairwise
      (fun a b => a.round ≤ b.round) := by
  have h := parseRounds_spec aot 1
  exact ⟨fun r hr => by have := h.1 r hr; omega, h.2⟩

def wAot : List RoundData :=
  [some [("Alice_a1b2c3d4",
    some [ActionEntry.withAction
      (PyAction.dict (some "TALK") (some "this is long enough".toList))])]]

def wRec : InteractionRec := ⟨1, "Alice".toList, "this is long enough".toList⟩

theorem structured_rounds_bounded_and_monotone_witness :
    (wRec ∈ parse_actions_chronologically wAot) ∧
      (1 ≤ wRec.round ∧ wRec.round ≤ wAot.length) :=
  ⟨by decide, (structured_rounds_bounded_and_monotone wAot).1 wRec (by decide)⟩

/-! ## `SimulationService._parse_tinytroupe_formatted_output` (fallback path)

The method is regex-driven; this embedding compiles each regex of the
source into an explicit character-level matcher with the engine's
semantics: `re.sub` / `re.findall` scan for leftmost non-overlapping
matches, lazy and greedy quantifiers are resolved exactly as backtracking
resolves them for these particular patterns (noted at each definition).
Functions that recurse on non-structural suffixes take a fuel argument (a
length bound) so that every definition evaluates by kernel reduction. -/

def ansiParam (c : Char) : Bool := '0' ≤ c && c ≤ '?'

def ansiInter (c : Char) : Bool := ' ' ≤ c && c ≤ '/'

def ansiFinal (c : Char) : Bool := '@' ≤ c && c ≤ '~'

def ansiSingle (c : Char) : Bool := ('@' ≤ c && c ≤ 'Z') || ('\\' ≤ c && c ≤ '_')

/-- The tail of one ANSI escape after the ESC byte, per
`r'\x1B(?:[@-Z\\-_]|\[[0-?]*[ -\x2f]*[@-~])'`: a single byte in `[@-Z\\-_]`,
or `[` + parameters `[0-?]*` + intermediates `[ -\x2f]*` (space through slash) + a final `[@-~]`
(the three classes are disjoint, so the greedy stars are deterministic).
Returns the rest after the escape, or `none` if no escape matches here. -/
def ansiTail (s : List Char) : Option (List Char) :=
  match s with
  | [] => none
  | c :: rest =>
      if c = '[' then
        match (rest.dropWhile ansiParam).dropWhile ansiInter with
        | d :: r3 => if ansiFinal d then some r3 else none
        | [] => none
      else if ansiSingle c then some rest
      else none

/-- Fueled scanner for `ansi_escape.sub('', s)`: drop each escape sequence,
keep every other character (a lone ESC that starts no valid escape is
kept, as `re.sub` leaves unmatched text alone). -/
def stripAnsiF : Nat → List Char → List Char
  | 0, s => s
  | _, [] => []
  | fuel + 1, c :: rest =>
      if c = '\x1B' then
        match ansiTail rest with
        | some r => stripAnsiF fuel r
        | none => c :: stripAnsiF fuel rest
      else c :: stripAnsiF fuel rest

def stripAnsi (s : List Char) : List Char := stripAnsiF s.length s

def startsWithLit (p : String) (s : List Char) : Bool := p.toList.isPrefixOf s

/-- The negative lookahead of `r'\[(?!(?:TALK|DONE|THINK|LISTEN)\])[^]]*\]'`:
true when the text after `[` starts with a preserved action tag. -/
def keepTag (s : List Char) : Bool :=
  startsWithLit "TALK]" s || startsWithLit "DONE]" s ||
    startsWithLit "THINK]" s || startsWithLit "LISTEN]" s

/-- `[^]]*\]` after an opening `[`: skip to the first `]` (the star cannot
cross a `]`), consuming it; `none` when no `]` follows. -/
def styleTail (s : List Char) : Option (List Char) :=
  match s.dropWhile (fun c => c ≠ ']') with
  | c :: r => if c = ']' then some r else none
  | [] => none

/-- Fueled scanner for `style_markup.sub('', s)`: remove bracketed style
tags, keeping `[TALK]`, `[DONE]`, `[THINK]`, `[LISTEN]` (the lookahead)
and any `[` with no closing `]`. -/
def stripStyleF : Nat → List Char → List Char
  | 0, s => s
  | _, [] => []
  | fuel + 1, c :: rest =>
      if c = '[' then
        if keepTag rest then c :: stripStyleF fuel rest
        else match styleTail rest with
          | some r => stripStyleF fuel r
          | none => c :: stripStyleF fuel rest
      else c :: stripStyleF fuel rest

def stripStyle (s : List Char) : List Char := stripStyleF s.length s

/-- The character class `[A-Za-z\s]` of the talk pattern's name group. -/
def isNameChar (c : Char) : Bool := c.isAlpha || pyWs c

/-- Match a literal string, returning the rest. -/
def matchLit : List Char → List Char → Option (List Char)
  | [], s => some s
  | _ :: _, [] => none
  | p :: ps, c :: cs => if c = p then matchLit ps cs else none

/-- The optional collision suffix `(?:_[a-f0-9]{8})?` of the talk pattern. -/
def matchSuffix (s : List Char) : Option (List Char) :=
  match s with
  | c0 :: c1 :: c2 :: c3 :: c4 :: c5 :: c6 :: c7 :: c8 :: rest =>
      if c0 = '_' && isLowerHexDigit c1 && isLowerHexDigit c2 &&
         isLowerHexDigit c3 && isLowerHexDigit c4 && isLowerHexDigit c5 &&
         isLowerHexDigit c6 && isLowerHexDigit c7 && isLowerHexDigit c8 then
        some rest
      else none
  | _ => none

/-- The character class `[^\n]` of the content group. -/
def notNl (c : Char) : Bool := c ≠ '\n'

/-- One repetition of the content group `\s*>\s*[^\n]*\n?`.  The greedy
pieces are deterministic: `>` is not whitespace so the leading `\s*` is the
maximal whitespace run, `[^\n]*` runs to the next newline (or the end) and
`\n?` consumes that newline when present.  Returns (consumed, rest). -/
def contRep (s : List Char) : Option (List Char × List Char) :=
  match s.dropWhile pyWs with
  | c :: r1 =>
      if c = '>' then
        match (r1.dropWhile pyWs).dropWhile notNl with
        | '\n' :: r4 =>
            some (s.takeWhile pyWs ++ '>' :: (r1.takeWhile pyWs ++
              (r1.dropWhile pyWs).takeWhile notNl ++ ['\n']), r4)
        | r3 =>
            some (s.takeWhile pyWs ++ '>' :: (r1.takeWhile pyWs ++
              (r1.dropWhile pyWs).takeWhile notNl), r3)
      else none
  | [] => none

/-- Zero or more further repetitions of the content group, greedy. -/
def contGroupManyF : Nat → List Char → (List Char × List Char)
  | 0, s => ([], s)
  | fuel + 1, s =>
      match contRep s with
      | none => ([], s)
      | some (c, r) =>
          let p := contGroupManyF fuel r
          (c ++ p.1, p.2)

/-- The capture group `((?:\s*>\s*[^\n]*\n?)+)`: one or more repetitions,
greedy; nothing follows it in the pattern, so no backtracking into it. -/
def contGroup (s : List Char) : Option (List Char × List Char) :=
  match contRep s with
  | none => none
  | some (c, r) =>
      let p := contGroupManyF r.length r
      some (c ++ p.1, p.2)

/-- All splits of a whitespace run as `w₁ ++ '\n' :: w₂`, in left-to-right
newline order. -/
def nlSplitsAsc : List Char → List (List Char × List Char)
  | [] => []
  | c :: cs =>
      (if c = '\n' then [(([c] : List Char), cs)] else []) ++
        (nlSplitsAsc cs).map (fun p => (c :: p.1, p.2))

/-- The same splits in the order a greedy `\s*` backtracks through them:
rightmost newline first. -/
def nlSplits (w : List Char) : List (List Char × List Char) :=
  (nlSplitsAsc w).reverse

def firstSome {α : Type} : List (Option α) → Option α
  | [] => none
  | some a :: _ => some a
  | none :: rest => firstSome rest

/-- Match `\s*\n` followed by the content group: the greedy `\s*` consumes
the maximal whitespace run and backtracks through its newlines (rightmost
first) until the content group matches; whitespace after the chosen
newline is left for (and captured by) the group's leading `\s*`. -/
def afterTag (s : List Char) : Option (List Char × List Char) :=
  firstSome ((nlSplits (s.takeWhile pyWs)).map
    (fun p => contGroup (p.2 ++ s.dropWhile pyWs)))

/-- Match `\s+acts:\s*\[TALK\]` then `afterTag`.  The greedy `\s+`/`\s*`
are deterministic because `a` and `[` are not whitespace. -/
def afterName (s : List Char) : Option (List Char × List Char) :=
  if s.takeWhile pyWs = [] then none
  else
    match matchLit "acts:".toList (s.dropWhile pyWs) with
    | none => none
    | some r2 =>
        match matchLit "[TALK]".toList (r2.dropWhile pyWs) with
        | none => none
        | some r4 => afterTag r4


/-- What follows the name group: the greedy optional suffix is tried first
and backtracked to empty on failure. -/
def matchAfterName (s : List Char) : Option (List Char × List Char) :=
  match matchSuffix s with
  | some r =>
      match afterName r with
      | some out => some out
      | none => afterName s
  | none => afterName s

/-- The lazy name group `([A-Za-z\s]+?)`: starting from one name character,
try the rest of the pattern after each further character, shortest first. -/
def tryNameAux (acc : List Char) :
    List Char → Option (List Char × List Char × List Char)
  | [] => none
  | c :: cs =>
      if isNameChar c then
        match matchAfterName cs with
        | some (cap, rest) => some (acc ++ [c], cap, rest)
        | none => tryNameAux (acc ++ [c]) cs
      else none

/-- Fueled `re.findall` scan: at each position try a match (which, when the
pattern matches at all, starts with a name character); on success emit
(group 1, group 2) and continue after the match, else advance one char. -/
def findTalkMatchesF : Nat → List Char → List (List Char × List Char)
  | 0, _ => []
  | fuel + 1, s =>
      match tryNameAux [] s with
      | some (n, cap, rest) => (n, cap) :: findTalkMatchesF fuel rest
      | none =>
          match s with
          | [] => []
          | _ :: cs => findTalkMatchesF fuel cs

/-- `re.findall(talk_action_pattern, s, re.MULTILINE | re.DOTALL)` (the
flags are inert: the pattern has no `^`, `$` or `.`). -/
def findTalkMatches (s : List Char) : List (List Char × List Char) :=
  findTalkMatchesF (s.length + 1) s

/-- Python `str.split('\n')`. -/
def splitOnNl : List Char → List (List Char)
  | [] => [[]]
  | c :: rest =>
      if c = '\n' then [] :: splitOnNl rest
      else match splitOnNl rest with
        | [] => [[c]]
        | h :: t => (c :: h) :: t

/-- The per-match loop body of the source: strip each line; a stripped line
starting with `>` contributes `line[1:].strip()`, any other nonempty
stripped line contributes itself, empty lines are dropped. -/
def contentLinesOf (lines : List (List Char)) : List (List Char) :=
  lines.filterMap (fun ln =>
    match pyStrip ln with
    | [] => none
    | c :: restLn => if c = '>' then some (pyStrip restLn) else some (c :: restLn))

/-- Postprocessing of one findall match: `clean_agent_name =
agent_name.strip()`, content lines joined with `' '` and stripped, record
kept only when longer than 10 chars.  The enumeration index `i` is stored
as the record's round (sequential, fallback only). -/
def processMatch (i : Nat) (nm cap : List Char) : Option InteractionRec :=
  if 10 < (pyStrip (joinSpace (contentLinesOf (splitOnNl cap)))).length then
    some ⟨i, pyStrip nm, pyStrip (joinSpace (contentLinesOf (splitOnNl cap)))⟩
  else none

/-- Python `enumerate(xs, k)`. -/
def enumF {α : Type} : Nat → List α → List (Nat × α)
  | _, [] => []
  | k, a :: rest => (k, a) :: enumF (k + 1) rest

/-- Shallow embedding of
`SimulationService._parse_tinytroupe_formatted_output`: strip ANSI escapes
and style markup, find all TALK-action matches, and post-process each into
an `InteractionRec` (skipping those at or below the length threshold while
still advancing the enumeration index). -/
def parse_tinytroupe_formatted_output (conversationContent : List Char) :
    List InteractionRec :=
  if conversationContent = [] then []
  else
    (enumF 1 (findTalkMatches (stripStyle (stripAnsi conversationContent)))).filterMap
      (fun p => processMatch p.1 p.2.1 p.2.2)

/-- Shallow embedding of `SimulationService._convert_actions_to_interactions`:
prefer the structured path when `actions_over_time` is truthy; fall back to
parsing the rendered transcript only when the structured records are empty
and the transcript is truthy. -/
def convert_actions_to_interactions (aot : List RoundData) (cc : List Char) :
    List InteractionRec :=
  if aot ≠ [] then
    if (parse_actions_chronologically aot).length = 0 ∧ cc ≠ [] then
      parse_tinytroupe_formatted_output cc
    else parse_actions_chronologically aot
  else if cc ≠ [] then parse_tinytroupe_formatted_output cc
  else []

theorem parseRounds_content (aot : List RoundData) (k : Nat) (r : InteractionRec)
    (hr : r ∈ parseRounds k aot) : 10 < (pyStrip r.content).length := by
  induction aot generalizing k with
  | nil => cases hr
  | cons rd rds ih =>
      rw [parseRounds] at hr
      rcases List.mem_append.mp hr with h | h
      · rcases rd with _ | entries
        · cases h
        · exact (roundTalks_mem_spec entries k r h).2
      · exact ih (k + 1) h

/-- C5: every record emitted by the structured path or by the fallback path
has trimmed content strictly longer than 10 characters (both paths guard
emission with `len(...) > 10` on stripped content). -/
theorem recorded_content_exceeds_threshold (aot : List RoundData)
    (cc : List Char) :
    (∀ r ∈ parse_actions_chronologically aot, 10 < (pyStrip r.content).length)
  ∧ (∀ r ∈ parse_tinytroupe_formatted_output cc,
      10 < (pyStrip r.content).length) := by
  constructor
  · intro r hr
    exact parseRounds_content aot 1 r hr
  · intro r hr
    rw [parse_tinytroupe_formatted_output] at hr
    by_cases hcc : cc = []
    · rw [if_pos hcc] at hr; cases hr
    · rw [if_neg hcc] at hr
      rcases List.mem_filterMap.mp hr with ⟨p, -, hp⟩
      rw [processMatch] at hp
      by_cases hlen : 10 < (pyStrip (joinSpace (contentLinesOf (splitOnNl p.2.2)))).length
      · rw [if_pos hlen] at hp
        simp only [Option.some.injEq] at hp
        rw [← hp]
        rw [pyStrip_idem]
        exact hlen
      · rw [if_neg hlen] at hp; cases hp

theorem recorded_content_exceeds_threshold_witness :
    (wRec ∈ parse_actions_chronologically wAot) ∧
      10 < (pyStrip wRec.content).length :=
  ⟨by decide, (recorded_content_exceeds_threshold wAot []).1 wRec (by decide)⟩

/-- C4: the rendered transcript is parsed via the fallback path only when
the structured path yields zero records; whenever the structured path
yields at least one record, `_convert_actions_to_interactions` returns
exactly the structured records. -/
theorem fallback_only_when_structured_empty (aot : List RoundData)
    (cc : List Char) :
    (parse_actions_chronologically aot ≠ [] →
      convert_actions_to_interactions aot cc
        = parse_actions_chronologically aot)
  ∧ (parse_actions_chronologically aot = [] →
      convert_actions_to_interactions aot cc
        = if cc = [] then [] else parse_tinytroupe_formatted_output cc) := by
  constructor
  · intro h
    have haot : aot ≠ [] := by
      intro hcontra
      apply h
      rw [hcontra]
      rfl
    rw [convert_actions_to_interactions, if_pos haot, if_neg]
    intro hcond
    exact h (List.length_eq_zero.mp hcond.1)
  · intro h
    by_cases haot : aot = []
    · rw [convert_actions_to_interactions, if_neg (by simp [haot])]
      by_cases hcc : cc = []
      · rw [if_neg (by simp [hcc]), if_pos hcc]
      · rw [if_pos hcc, if_neg hcc]
    · by_cases hcc : cc = []
      · rw [convert_actions_to_interactions, if_pos haot,
          if_neg (by simp [hcc]), h, if_pos hcc]
      · rw [convert_actions_to_interactions, if_pos haot,
          if_pos ⟨List.length_eq_zero.mpr h, hcc⟩, if_neg hcc]

theorem fallback_only_when_structured_empty_witness :
    convert_actions_to_interactions wAot "unused transcript text".toList
      = parse_actions_chronologically wAot :=
  (fallback_only_when_structured_empty wAot "unused transcript text".toList).1
    (by decide)

/-! ## Round-trip of the fallback parser on two-block transcripts (C3)

The renderer's block form, per the spec: `<Name> acts: [TALK]` on one
line, then one or more indented continuation lines `  > <content>`; the
rendered name may carry the engine's session-collision suffix
`_[a-f0-9]\x7b8\x7d`, which the pattern consumes outside group 1.
`goodName`/`goodSuffix`/`goodLine` delimit the claim's input class: names
are nonempty words of letters and spaces (first and last a letter),
suffixes are empty or an underscore plus eight lowercase hex digits, and
content lines are nonempty, single-line, free of `[` and ESC, and
trimmed. -/

def sepChars : List Char :=
  [' ', 'a', 'c', 't', 's', ':', ' ', '[', 'T', 'A', 'L', 'K', ']', '\n']

def renderLine (l : List Char) : List Char :=
  ' ' :: ' ' :: '>' :: ' ' :: (l ++ ['\n'])

def linesRender (L : List (List Char)) : List Char :=
  (L.map renderLine).flatten

/-- One rendered agent block: `<Name> acts: [TALK]\n` then its indented
continuation lines. -/
def renderBlock (n : List Char) (L : List (List Char)) : List Char :=
  n ++ sepChars ++ linesRender L

def goodName (n : List Char) : Prop :=
  n ≠ [] ∧ (∀ c ∈ n, c.isAlpha = true ∨ c = ' ') ∧
    (∀ c ∈ n.head?, c.isAlpha = true) ∧
    (∀ c ∈ n.getLast?, c.isAlpha = true)

def goodLine (l : List Char) : Prop :=
  l ≠ [] ∧ (∀ c ∈ l, c ≠ '\n' ∧ c ≠ '[' ∧ c ≠ '\x1B') ∧
    (∀ c ∈ l.head?, pyWs c = false) ∧
    (∀ c ∈ l.getLast?, pyWs c = false)

def goodLines (L : List (List Char)) : Prop := L ≠ [] ∧ ∀ l ∈ L, goodLine l

instance (n : List Char) : Decidable (goodName n) := by
  unfold goodName
  infer_instance

instance (l : List Char) : Decidable (goodLine l) := by
  unfold goodLine
  infer_instance

instance (L : List (List Char)) : Decidable (goodLines L) := by
  unfold goodLines
  infer_instance

/-- The engine's optional session-collision suffix on a rendered agent name:
empty, or an underscore followed by exactly eight lowercase hex digits —
the shape consumed (and discarded) by the pattern's `(?:_[a-f0-9]\x7b8\x7d)?`
group. -/
def goodSuffix (s : List Char) : Prop :=
  s = [] ∨ (s.head? = some '_' ∧ s.length = 9 ∧
    ∀ c ∈ s.tail, isLowerHexDigit c = true)

instance (s : List Char) : Decidable (goodSuffix s) := by
  unfold goodSuffix
  infer_instance

theorem goodSuffix_cases (s : List Char) (hs : goodSuffix s) :
    s = [] ∨ ∃ ds, s = '_' :: ds ∧ ds.length = 8 ∧
      ∀ c ∈ ds, isLowerHexDigit c = true := by
  rcases hs with rfl | ⟨hh, hlen, hhex⟩
  · exact Or.inl rfl
  · right
    rcases s with _ | ⟨c, t⟩
    · cases hh
    · have hc : some c = some '_' := hh
      injection hc with hc'
      subst hc'
      refine ⟨t, rfl, ?_, ?_⟩
      · simp only [List.length_cons] at hlen
        omega
      · exact hhex

/-- What may follow a rendered block in a transcript: nothing, or another
block (which starts with a letter of the next name). -/
def goodRest (rest : List Char) : Prop :=
  rest = [] ∨ ∃ c cs, rest = c :: cs ∧ c.isAlpha = true

theorem alpha_not_ws (c : Char) (h : c.isAlpha = true) : pyWs c = false := by
  by_contra hw
  rw [Bool.not_eq_false, pyWs] at hw
  simp only [Bool.or_eq_true, decide_eq_true_eq] at hw
  rcases hw with ((((h1 | h1) | h1) | h1) | h1) | h1 <;>
    (subst h1; exact absurd h (by decide))

theorem takeDropWhile_split (p : Char → Bool) (l t : List Char)
    (hall : ∀ c ∈ l, p c = true)
    (hstop : ∀ c, t.head? = some c → p c = false) :
    (l ++ t).takeWhile p = l ∧ (l ++ t).dropWhile p = t := by
  induction l with
  | nil =>
      simp only [List.nil_append]
      cases t with
      | nil => exact ⟨rfl, rfl⟩
      | cons c t' =>
          have := hstop c rfl
          constructor
          · rw [List.takeWhile_cons_of_neg (by simp [this])]
          · rw [List.dropWhile_cons_of_neg (by simp [this])]
  | cons a l' ih =>
      have ha : p a = true := hall a (List.mem_cons_self a l')
      have ih' := ih (fun c hc => hall c (List.mem_cons_of_mem a hc))
      constructor
      · rw [List.cons_append, List.takeWhile_cons_of_pos ha, ih'.1]
      · rw [List.cons_append, List.dropWhile_cons_of_pos ha, ih'.2]

theorem matchLit_eq_append (p s r : List Char) :
    matchLit p s = some r ↔ s = p ++ r := by
  induction p generalizing s with
  | nil =>
      simp [matchLit, eq_comm]
  | cons a p' ih =>
      cases s with
      | nil =>
          simp [matchLit]
      | cons c cs =>
          rw [matchLit]
          by_cases hc : c = a
          · subst hc
            rw [if_pos rfl, ih cs]
            simp [List.cons_append]
          · rw [if_neg hc]
            simp only [List.cons_append]
            constructor
            · intro h; cases h
            · intro h
              injection h with h1 h2
              exact absurd h1 hc

theorem matchSuffix_none_of_head (c : Char) (s : List Char) (hc : c ≠ '_') :
    matchSuffix (c :: s) = none := by
  rcases s with _ | ⟨a1, _ | ⟨a2, _ | ⟨a3, _ | ⟨a4, _ | ⟨a5, _ | ⟨a6, _ | ⟨a7, _ | ⟨a8, rest⟩⟩⟩⟩⟩⟩⟩⟩ <;>
    simp [matchSuffix, hc]

theorem matchSuffix_hex (ds r : List Char) (hlen : ds.length = 8)
    (hhex : ∀ c ∈ ds, isLowerHexDigit c = true) :
    matchSuffix ('_' :: ds ++ r) = some r := by
  rcases ds with _ | ⟨d1, _ | ⟨d2, _ | ⟨d3, _ | ⟨d4, _ | ⟨d5, _ | ⟨d6, _ | ⟨d7, _ | ⟨d8, tl⟩⟩⟩⟩⟩⟩⟩⟩
  · simp at hlen
  · simp at hlen
  · simp at hlen
  · simp at hlen
  · simp at hlen
  · simp at hlen
  · simp at hlen
  · simp at hlen
  · have htl : tl = [] := by
      apply List.eq_nil_of_length_eq_zero
      simp only [List.length_cons] at hlen
      omega
    subst htl
    have h1 : isLowerHexDigit d1 = true := hhex d1 (by simp)
    have h2 : isLowerHexDigit d2 = true := hhex d2 (by simp)
    have h3 : isLowerHexDigit d3 = true := hhex d3 (by simp)
    have h4 : isLowerHexDigit d4 = true := hhex d4 (by simp)
    have h5 : isLowerHexDigit d5 = true := hhex d5 (by simp)
    have h6 : isLowerHexDigit d6 = true := hhex d6 (by simp)
    have h7 : isLowerHexDigit d7 = true := hhex d7 (by simp)
    have h8 : isLowerHexDigit d8 = true := hhex d8 (by simp)
    simp [matchSuffix, h1, h2, h3, h4, h5, h6, h7, h8]

theorem dropWhile_append_left (p : Char → Bool) (l m : List Char)
    (hex : ∃ c ∈ l, p c = false) :
    (l ++ m).dropWhile p = l.dropWhile p ++ m := by
  induction l with
  | nil =>
      obtain ⟨c, hc, -⟩ := hex
      cases hc
  | cons a l' ih =>
      by_cases ha : p a
      · obtain ⟨c, hc, hcp⟩ := hex
        rcases List.mem_cons.mp hc with rfl | hc'
        · rw [ha] at hcp; cases hcp
        · rw [List.cons_append, List.dropWhile_cons_of_pos ha,
            List.dropWhile_cons_of_pos ha]
          exact ih ⟨c, hc', hcp⟩
      · rw [List.cons_append, List.dropWhile_cons_of_neg ha,
          List.dropWhile_cons_of_neg ha, List.cons_append]

theorem dropWhile_ne_nil (p : Char → Bool) (l : List Char)
    (hex : ∃ c ∈ l, p c = false) : l.dropWhile p ≠ [] := by
  induction l with
  | nil =>
      obtain ⟨c, hc, -⟩ := hex
      cases hc
  | cons a l' ih =>
      by_cases ha : p a
      · obtain ⟨c, hc, hcp⟩ := hex
        rcases List.mem_cons.mp hc with rfl | hc'
        · rw [ha] at hcp; cases hcp
        · rw [List.dropWhile_cons_of_pos ha]
          exact ih ⟨c, hc', hcp⟩
      · rw [List.dropWhile_cons_of_neg ha]
        simp

theorem acts_matchLit_none (v' X : List Char) (hne : v' ≠ [])
    (hch : ∀ c ∈ v', c.isAlpha = true ∨ c = ' ') :
    matchLit ("acts:".toList) (v' ++ ' ' :: X) = none := by
  rcases hml : matchLit ("acts:".toList) (v' ++ ' ' :: X) with _ | r
  · rfl
  · exfalso
    have heq := (matchLit_eq_append _ _ _).mp hml
    have hlit : ("acts:".toList) = ['a', 'c', 't', 's', ':'] := rfl
    rw [hlit] at heq
    rcases v' with _ | ⟨x1, _ | ⟨x2, _ | ⟨x3, _ | ⟨x4, _ | ⟨x5, tl⟩⟩⟩⟩⟩
    · exact hne rfl
    · simp [List.cons_append] at heq
    · simp [List.cons_append] at heq
    · simp [List.cons_append] at heq
    · simp [List.cons_append] at heq
    · simp [List.cons_append] at heq
      have hx5 := hch x5 (by simp)
      rw [heq.2.2.2.2.1] at hx5
      rcases hx5 with h | h
      · exact absurd h (by decide)
      · exact absurd h (by decide)

theorem acts_matchLit_none_u (v' X : List Char) (hne : v' ≠ [])
    (hch : ∀ c ∈ v', c.isAlpha = true ∨ c = ' ') :
    matchLit ("acts:".toList) (v' ++ '_' :: X) = none := by
  rcases hml : matchLit ("acts:".toList) (v' ++ '_' :: X) with _ | r
  · rfl
  · exfalso
    have heq := (matchLit_eq_append _ _ _).mp hml
    have hlit : ("acts:".toList) = ['a', 'c', 't', 's', ':'] := rfl
    rw [hlit] at heq
    rcases v' with _ | ⟨x1, _ | ⟨x2, _ | ⟨x3, _ | ⟨x4, _ | ⟨x5, tl⟩⟩⟩⟩⟩
    · exact hne rfl
    · simp [List.cons_append] at heq
    · simp [List.cons_append] at heq
    · simp [List.cons_append] at heq
    · simp [List.cons_append] at heq
    · simp [List.cons_append] at heq
      have hx5 := hch x5 (by simp)
      rw [heq.2.2.2.2.1] at hx5
      rcases hx5 with h | h
      · exact absurd h (by decide)
      · exact absurd h (by decide)

theorem afterName_fail (v X : List Char) (hne : v ≠ [])
    (hch : ∀ c ∈ v, c.isAlpha = true ∨ c = ' ')
    (hlast : ∀ c, v.getLast? = some c → c.isAlpha = true) :
    afterName (v ++ ' ' :: X) = none := by
  obtain ⟨c, v'', rfl⟩ : ∃ c v'', v = c :: v'' := by
    rcases v with _ | ⟨c, v''⟩
    · exact absurd rfl hne
    · exact ⟨c, v'', rfl⟩
  have hexists : ∃ d ∈ c :: v'', pyWs d = false := by
    rcases hlastc : (c :: v'').getLast? with _ | d
    · simp at hlastc
    · have hmem : d ∈ (c :: v'').getLast? := by rw [hlastc]; rfl
      obtain ⟨hne', hd⟩ := List.mem_getLast?_eq_getLast hmem
      exact ⟨d, hd ▸ List.getLast_mem hne', alpha_not_ws d (hlast d hlastc)⟩
  rcases hch c (List.mem_cons_self c v'') with hca | hcs
  · rw [afterName, if_pos]
    rw [List.cons_append, List.takeWhile_cons_of_neg]
    simp [alpha_not_ws c hca]
  · subst hcs
    have hdrop : ((' ' :: v'') ++ ' ' :: X).dropWhile pyWs
        = (' ' :: v'').dropWhile pyWs ++ ' ' :: X :=
      dropWhile_append_left pyWs (' ' :: v'') (' ' :: X) hexists
    have hv'ne : (' ' :: v'').dropWhile pyWs ≠ [] := dropWhile_ne_nil pyWs _ hexists
    have hv'ch : ∀ d ∈ (' ' :: v'').dropWhile pyWs, d.isAlpha = true ∨ d = ' ' :=
      fun d hd => hch d ((List.dropWhile_sublist pyWs).subset hd)
    rw [afterName, if_neg, hdrop]
    · rw [acts_matchLit_none _ X hv'ne hv'ch]
    · rw [List.cons_append, List.takeWhile_cons_of_pos (by decide)]
      simp

theorem afterName_fail_u (v X : List Char) (hne : v ≠ [])
    (hch : ∀ c ∈ v, c.isAlpha = true ∨ c = ' ')
    (hlast : ∀ c, v.getLast? = some c → c.isAlpha = true) :
    afterName (v ++ '_' :: X) = none := by
  obtain ⟨c, v'', rfl⟩ : ∃ c v'', v = c :: v'' := by
    rcases v with _ | ⟨c, v''⟩
    · exact absurd rfl hne
    · exact ⟨c, v'', rfl⟩
  have hexists : ∃ d ∈ c :: v'', pyWs d = false := by
    rcases hlastc : (c :: v'').getLast? with _ | d
    · simp at hlastc
    · have hmem : d ∈ (c :: v'').getLast? := by rw [hlastc]; rfl
      obtain ⟨hne', hd⟩ := List.mem_getLast?_eq_getLast hmem
      exact ⟨d, hd ▸ List.getLast_mem hne', alpha_not_ws d (hlast d hlastc)⟩
  rcases hch c (List.mem_cons_self c v'') with hca | hcs
  · rw [afterName, if_pos]
    rw [List.cons_append, List.takeWhile_cons_of_neg]
    simp [alpha_not_ws c hca]
  · subst hcs
    have hdrop : ((' ' :: v'') ++ '_' :: X).dropWhile pyWs
        = (' ' :: v'').dropWhile pyWs ++ '_' :: X :=
      dropWhile_append_left pyWs (' ' :: v'') ('_' :: X) hexists
    have hv'ne : (' ' :: v'').dropWhile pyWs ≠ [] := dropWhile_ne_nil pyWs _ hexists
    have hv'ch : ∀ d ∈ (' ' :: v'').dropWhile pyWs, d.isAlpha = true ∨ d = ' ' :=
      fun d hd => hch d ((List.dropWhile_sublist pyWs).subset hd)
    rw [afterName, if_neg, hdrop]
    · rw [acts_matchLit_none_u _ X hv'ne hv'ch]
    · rw [List.cons_append, List.takeWhile_cons_of_pos (by decide)]
      simp

theorem matchAfterName_fail (v X : List Char) (hne : v ≠ [])
    (hch : ∀ c ∈ v, c.isAlpha = true ∨ c = ' ')
    (hlast : ∀ c, v.getLast? = some c → c.isAlpha = true) :
    matchAfterName (v ++ ' ' :: X) = none := by
  obtain ⟨c, v'', rfl⟩ : ∃ c v'', v = c :: v'' := by
    rcases v with _ | ⟨c, v''⟩
    · exact absurd rfl hne
    · exact ⟨c, v'', rfl⟩
  have hcne : c ≠ '_' := by
    rcases hch c (List.mem_cons_self c v'') with hca | hcs
    · intro hcontra
      rw [hcontra] at hca
      exact absurd hca (by decide)
    · intro hcontra
      rw [hcontra] at hcs
      exact absurd hcs (by decide)
  rw [matchAfterName, List.cons_append, matchSuffix_none_of_head c _ hcne,
    ← List.cons_append, afterName_fail _ X hne hch hlast]

theorem matchAfterName_fail_u (v X : List Char) (hne : v ≠ [])
    (hch : ∀ c ∈ v, c.isAlpha = true ∨ c = ' ')
    (hlast : ∀ c, v.getLast? = some c → c.isAlpha = true) :
    matchAfterName (v ++ '_' :: X) = none := by
  obtain ⟨c, v'', rfl⟩ : ∃ c v'', v = c :: v'' := by
    rcases v with _ | ⟨c, v''⟩
    · exact absurd rfl hne
    · exact ⟨c, v'', rfl⟩
  have hcne : c ≠ '_' := by
    rcases hch c (List.mem_cons_self c v'') with hca | hcs
    · intro hcontra
      rw [hcontra] at hca
      exact absurd hca (by decide)
    · intro hcontra
      rw [hcontra] at hcs
      exact absurd hcs (by decide)
  rw [matchAfterName, List.cons_append, matchSuffix_none_of_head c _ hcne,
    ← List.cons_append, afterName_fail_u _ X hne hch hlast]

theorem contRep_line (x : Char) (l' : List Char) (tail : List Char)
    (hl : goodLine (x :: l')) :
    contRep (renderLine (x :: l') ++ tail) = some (renderLine (x :: l'), tail) := by
  obtain ⟨-, hch, hhead, -⟩ := hl
  have hx : pyWs x = false := hhead x rfl
  have hnl : ∀ c ∈ x :: l', notNl c = true := by
    intro c hc
    simp only [notNl, decide_eq_true_eq]
    exact (hch c hc).1
  have h5 := takeDropWhile_split notNl (x :: l') ('\n' :: tail)
    hnl (by intro c hc; simp at hc; subst hc; decide)
  have h1 : (' ' :: ' ' :: '>' :: ' ' :: ((x :: l') ++ '\n' :: tail)).dropWhile pyWs
      = '>' :: ' ' :: ((x :: l') ++ '\n' :: tail) := by
    rw [List.dropWhile_cons_of_pos (by decide), List.dropWhile_cons_of_pos (by decide),
      List.dropWhile_cons_of_neg (by decide)]
  have h2 : (' ' :: ' ' :: '>' :: ' ' :: ((x :: l') ++ '\n' :: tail)).takeWhile pyWs
      = [' ', ' '] := by
    rw [List.takeWhile_cons_of_pos (by decide), List.takeWhile_cons_of_pos (by decide),
      List.takeWhile_cons_of_neg (by decide)]
  have h3 : (' ' :: ((x :: l') ++ '\n' :: tail)).dropWhile pyWs
      = (x :: l') ++ '\n' :: tail := by
    rw [List.dropWhile_cons_of_pos (by decide), List.cons_append,
      List.dropWhile_cons_of_neg (by simp [hx])]
  have h4 : (' ' :: ((x :: l') ++ '\n' :: tail)).takeWhile pyWs = [' '] := by
    rw [List.takeWhile_cons_of_pos (by decide), List.cons_append,
      List.takeWhile_cons_of_neg (by simp [hx])]
  have hs : renderLine (x :: l') ++ tail
      = ' ' :: ' ' :: '>' :: ' ' :: ((x :: l') ++ '\n' :: tail) := by
    simp [renderLine]
  rw [hs, contRep, h1]
  simp only [h2, h3, h4, h5.1, h5.2]
  simp [renderLine]

theorem linesRender_cons (l : List Char) (L : List (List Char)) :
    linesRender (l :: L) = renderLine l ++ linesRender L := rfl

theorem contRep_rest_none (rest : List Char) (hrest : goodRest rest) :
    contRep rest = none := by
  rcases hrest with rfl | ⟨c, cs, rfl, hc⟩
  · rfl
  · have hcg : c ≠ '>' := by
      intro h
      rw [h] at hc
      exact absurd hc (by decide)
    rw [contRep, List.dropWhile_cons_of_neg (by simp [alpha_not_ws c hc])]
    simp [hcg]

theorem contGroupManyF_lines (L : List (List Char)) (rest : List Char)
    (hL : ∀ l ∈ L, goodLine l) (hrest : goodRest rest) :
    ∀ fuel, (linesRender L).length ≤ fuel →
      contGroupManyF fuel (linesRender L ++ rest) = (linesRender L, rest) := by
  induction L with
  | nil =>
      intro fuel _
      have hnone := contRep_rest_none rest hrest
      have hlr : linesRender [] = ([] : List Char) := rfl
      rw [hlr, List.nil_append]
      cases fuel with
      | zero => rfl
      | succ f => rw [contGroupManyF, hnone]
  | cons l L' ih =>
      intro fuel hfuel
      have hgl : goodLine l := hL l (List.mem_cons_self l L')
      obtain ⟨x, l'', rfl⟩ : ∃ x l'', l = x :: l'' := by
        rcases l with _ | ⟨x, l''⟩
        · exact absurd rfl hgl.1
        · exact ⟨x, l'', rfl⟩
      have hlen : (linesRender ((x :: l'') :: L')).length
          = (renderLine (x :: l'')).length + (linesRender L').length := by
        rw [linesRender_cons, List.length_append]
      have h5 : 1 ≤ (renderLine (x :: l'')).length := by
        simp [renderLine]
      cases fuel with
      | zero =>
          exfalso
          rw [hlen] at hfuel
          omega
      | succ f =>
          rw [linesRender_cons, List.append_assoc, contGroupManyF,
            contRep_line x l'' _ hgl]
          have hrec := ih (fun m hm => hL m (List.mem_cons_of_mem _ hm)) f
            (by rw [hlen] at hfuel; omega)
          simp only [hrec]

theorem contGroup_lines (L : List (List Char)) (rest : List Char)
    (hL : goodLines L) (hrest : goodRest rest) :
    contGroup (linesRender L ++ rest) = some (linesRender L, rest) := by
  obtain ⟨hne, hall⟩ := hL
  obtain ⟨l, L', rfl⟩ : ∃ l L', L = l :: L' := by
    rcases L with _ | ⟨l, L'⟩
    · exact absurd rfl hne
    · exact ⟨l, L', rfl⟩
  have hgl : goodLine l := hall l (List.mem_cons_self l L')
  obtain ⟨x, l'', rfl⟩ : ∃ x l'', l = x :: l'' := by
    rcases l with _ | ⟨x, l''⟩
    · exact absurd rfl hgl.1
    · exact ⟨x, l'', rfl⟩
  rw [linesRender_cons, List.append_assoc, contGroup, contRep_line x l'' _ hgl]
  have hrec := contGroupManyF_lines L' rest
    (fun m hm => hall m (List.mem_cons_of_mem _ hm)) hrest
    (linesRender L' ++ rest).length (by rw [List.length_append]; omega)
  simp only [hrec]

theorem afterTag_lines (L : List (List Char)) (rest : List Char)
    (hL : goodLines L) (hrest : goodRest rest) :
    afterTag ('\n' :: (linesRender L ++ rest)) = some (linesRender L, rest) := by
  obtain ⟨l, L', hLeq⟩ : ∃ l L', L = l :: L' := by
    rcases L with _ | ⟨l, L'⟩
    · exact absurd rfl hL.1
    · exact ⟨l, L', rfl⟩
  have hgl : goodLine l := hL.2 l (by rw [hLeq]; exact List.mem_cons_self l L')
  obtain ⟨x, l'', hleq⟩ : ∃ x l'', l = x :: l'' := by
    rcases l with _ | ⟨x, l''⟩
    · exact absurd rfl hgl.1
    · exact ⟨x, l'', rfl⟩
  subst hLeq hleq
  have hshape : '\n' :: (linesRender ((x :: l'') :: L') ++ rest)
      = '\n' :: ' ' :: ' ' :: '>' :: ' ' :: ((x :: l'') ++ '\n' ::
          (linesRender L' ++ rest)) := by
    rw [linesRender_cons]
    simp [renderLine]
  rw [afterTag, hshape]
  have htake : ('\n' :: ' ' :: ' ' :: '>' :: ' ' :: ((x :: l'') ++ '\n' ::
      (linesRender L' ++ rest))).takeWhile pyWs = ['\n', ' ', ' '] := by
    rw [List.takeWhile_cons_of_pos (by decide), List.takeWhile_cons_of_pos (by decide),
      List.takeWhile_cons_of_pos (by decide), List.takeWhile_cons_of_neg (by decide)]
  have hdrop : ('\n' :: ' ' :: ' ' :: '>' :: ' ' :: ((x :: l'') ++ '\n' ::
      (linesRender L' ++ rest))).dropWhile pyWs
      = '>' :: ' ' :: ((x :: l'') ++ '\n' :: (linesRender L' ++ rest)) := by
    rw [List.dropWhile_cons_of_pos (by decide), List.dropWhile_cons_of_pos (by decide),
      List.dropWhile_cons_of_pos (by decide), List.dropWhile_cons_of_neg (by decide)]
  rw [htake, hdrop]
  have hnsp : nlSplits ['\n', ' ', ' '] = [(['\n'], [' ', ' '])] := rfl
  rw [hnsp, List.map_cons, List.map_nil]
  have harr : [' ', ' '] ++ ('>' :: ' ' :: ((x :: l'') ++ '\n' ::
      (linesRender L' ++ rest))) = linesRender ((x :: l'') :: L') ++ rest := by
    rw [linesRender_cons]
    simp [renderLine]
  rw [harr, contGroup_lines ((x :: l'') :: L') rest hL hrest]
  rfl

theorem matchAfterName_sep (L : List (List Char)) (rest : List Char)
    (hL : goodLines L) (hrest : goodRest rest) :
    matchAfterName (sepChars ++ (linesRender L ++ rest))
      = some (linesRender L, rest) := by
  have h : matchAfterName (sepChars ++ (linesRender L ++ rest))
      = afterTag ('\n' :: (linesRender L ++ rest)) := rfl
  rw [h]
  exact afterTag_lines L rest hL hrest

theorem afterName_sep (L : List (List Char)) (rest : List Char)
    (hL : goodLines L) (hrest : goodRest rest) :
    afterName (sepChars ++ (linesRender L ++ rest))
      = some (linesRender L, rest) := by
  have h : afterName (sepChars ++ (linesRender L ++ rest))
      = afterTag ('\n' :: (linesRender L ++ rest)) := rfl
  rw [h]
  exact afterTag_lines L rest hL hrest

theorem matchAfterName_suf_sep (L : List (List Char)) (rest ds : List Char)
    (hL : goodLines L) (hrest : goodRest rest) (hlen : ds.length = 8)
    (hhex : ∀ c ∈ ds, isLowerHexDigit c = true) :
    matchAfterName ('_' :: ds ++ (sepChars ++ (linesRender L ++ rest)))
      = some (linesRender L, rest) := by
  have h1 : matchSuffix ('_' :: ds ++ (sepChars ++ (linesRender L ++ rest)))
      = some (sepChars ++ (linesRender L ++ rest)) :=
    matchSuffix_hex ds _ hlen hhex
  have h2 := afterName_sep L rest hL hrest
  simp only [matchAfterName, h1, h2]

theorem tryNameAux_block (L : List (List Char)) (rest : List Char)
    (hL : goodLines L) (hrest : goodRest rest) :
    ∀ (v acc : List Char), v ≠ [] →
      (∀ c ∈ v, c.isAlpha = true ∨ c = ' ') →
      (∀ c, v.getLast? = some c → c.isAlpha = true) →
      tryNameAux acc (v ++ (sepChars ++ (linesRender L ++ rest)))
        = some (acc ++ v, linesRender L, rest) := by
  intro v
  induction v with
  | nil => intro acc hne _ _; exact absurd rfl hne
  | cons c v' ih =>
      intro acc _ hch hlast
      have hc := hch c (List.mem_cons_self c v')
      have hcn : isNameChar c = true := by
        rcases hc with hca | hcs
        · simp [isNameChar, hca]
        · subst hcs
          simp [isNameChar, pyWs]
      rw [List.cons_append, tryNameAux, if_pos hcn]
      by_cases hv' : v' = []
      · subst hv'
        rw [List.nil_append, matchAfterName_sep L rest hL hrest]
      · have hch' : ∀ d ∈ v', d.isAlpha = true ∨ d = ' ' :=
          fun d hd => hch d (List.mem_cons_of_mem c hd)
        have hlast' : ∀ d, v'.getLast? = some d → d.isAlpha = true := by
          intro d hd
          apply hlast
          obtain ⟨a, t, rfl⟩ : ∃ a t, v' = a :: t := by
            rcases v' with _ | ⟨a, t⟩
            · exact absurd rfl hv'
            · exact ⟨a, t, rfl⟩
          rw [List.getLast?_cons_cons]
          exact hd
        have hfail : matchAfterName (v' ++ (sepChars ++ (linesRender L ++ rest)))
            = none :=
          matchAfterName_fail v'
            (['a', 'c', 't', 's', ':', ' ', '[', 'T', 'A', 'L', 'K', ']', '\n']
              ++ (linesRender L ++ rest)) hv' hch' hlast'
        rw [hfail, ih (acc ++ [c]) hv' hch' hlast']
        simp

theorem tryNameAux_block_suf (L : List (List Char)) (rest ds : List Char)
    (hL : goodLines L) (hrest : goodRest rest) (hlen : ds.length = 8)
    (hhex : ∀ c ∈ ds, isLowerHexDigit c = true) :
    ∀ (v acc : List Char), v ≠ [] →
      (∀ c ∈ v, c.isAlpha = true ∨ c = ' ') →
      (∀ c, v.getLast? = some c → c.isAlpha = true) →
      tryNameAux acc (v ++ ('_' :: ds ++ (sepChars ++ (linesRender L ++ rest))))
        = some (acc ++ v, linesRender L, rest) := by
  intro v
  induction v with
  | nil => intro acc hne _ _; exact absurd rfl hne
  | cons c v' ih =>
      intro acc _ hch hlast
      have hc := hch c (List.mem_cons_self c v')
      have hcn : isNameChar c = true := by
        rcases hc with hca | hcs
        · simp [isNameChar, hca]
        · subst hcs
          simp [isNameChar, pyWs]
      rw [List.cons_append, tryNameAux, if_pos hcn]
      by_cases hv' : v' = []
      · subst hv'
        rw [List.nil_append, matchAfterName_suf_sep L rest ds hL hrest hlen hhex]
      · have hch' : ∀ d ∈ v', d.isAlpha = true ∨ d = ' ' :=
          fun d hd => hch d (List.mem_cons_of_mem c hd)
        have hlast' : ∀ d, v'.getLast? = some d → d.isAlpha = true := by
          intro d hd
          apply hlast
          obtain ⟨a, t, rfl⟩ : ∃ a t, v' = a :: t := by
            rcases v' with _ | ⟨a, t⟩
            · exact absurd rfl hv'
            · exact ⟨a, t, rfl⟩
          rw [List.getLast?_cons_cons]
          exact hd
        have hfail : matchAfterName
            (v' ++ ('_' :: ds ++ (sepChars ++ (linesRender L ++ rest)))) = none :=
          matchAfterName_fail_u v'
            (ds ++ (sepChars ++ (linesRender L ++ rest))) hv' hch' hlast'
        rw [hfail, ih (acc ++ [c]) hv' hch' hlast']
        simp

theorem contRep_decomp (s c r : List Char) (h : contRep s = some (c, r)) :
    c ++ r = s ∧ c ≠ [] := by
  rw [contRep] at h
  split at h
  case _ c0 r1 heq =>
    split at h
    case isTrue hgt =>
      subst hgt
      have hs : s.takeWhile pyWs ++ ('>' :: r1) = s := by
        rw [← heq]
        exact List.takeWhile_append_dropWhile pyWs s
      have hr1 : r1.takeWhile pyWs ++ r1.dropWhile pyWs = r1 :=
        List.takeWhile_append_dropWhile pyWs r1
      have hr2 : (r1.dropWhile pyWs).takeWhile notNl ++
          (r1.dropWhile pyWs).dropWhile notNl = r1.dropWhile pyWs :=
        List.takeWhile_append_dropWhile notNl (r1.dropWhile pyWs)
      split at h
      case _ r4 heq2 =>
        injection h with h'
        injection h' with hc hr
        subst hc
        subst hr
        constructor
        · simp only [List.append_assoc, List.cons_append, List.nil_append]
          rw [← heq2, hr2, hr1]
          exact hs
        · intro hcontra
          have hlen := congrArg List.length hcontra
          rw [List.length_append, List.length_cons] at hlen
          simp at hlen
      case _ heq2 =>
        injection h with h'
        injection h' with hc hr
        subst hc
        subst hr
        constructor
        · simp only [List.append_assoc, List.cons_append, List.nil_append]
          rw [hr2, hr1]
          exact hs
        · intro hcontra
          have hlen := congrArg List.length hcontra
          rw [List.length_append, List.length_cons] at hlen
          simp at hlen
    case isFalse => cases h
  case _ => cases h

theorem contRep_rest_lt (s c r : List Char) (h : contRep s = some (c, r)) :
    r.length < s.length := by
  obtain ⟨hdec, hne⟩ := contRep_decomp s c r h
  have := congrArg List.length hdec
  rw [List.length_append] at this
  have hcpos : 0 < c.length := List.length_pos.mpr hne
  omega

theorem contGroupManyF_snd_le (fuel : Nat) :
    ∀ s : List Char, (contGroupManyF fuel s).2.length ≤ s.length := by
  induction fuel with
  | zero => intro s; exact le_refl _
  | succ f ih =>
      intro s
      rw [contGroupManyF]
      rcases hcr : contRep s with _ | ⟨c, r⟩
      · exact le_refl _
      · have h1 := ih r
        have h2 := contRep_rest_lt s c r hcr
        simp only
        omega

theorem contGroup_snd_lt (s cap r : List Char) (h : contGroup s = some (cap, r)) :
    r.length < s.length := by
  rw [contGroup] at h
  split at h
  case _ => cases h
  case _ c0 r0 heq =>
    injection h with h'
    injection h' with hc hr
    subst hr
    have h1 := contGroupManyF_snd_le r0.length r0
    have h2 := contRep_rest_lt s c0 r0 heq
    omega

theorem firstSome_mem {α : Type} (xs : List (Option α)) (a : α)
    (h : firstSome xs = some a) : some a ∈ xs := by
  induction xs with
  | nil => cases h
  | cons x rest ih =>
      rcases x with _ | b
      · rw [firstSome] at h
        exact List.mem_cons_of_mem _ (ih h)
      · rw [firstSome] at h
        rw [h]
        exact List.mem_cons_self _ _

theorem nlSplitsAsc_parts (w : List Char) :
    ∀ p ∈ nlSplitsAsc w, p.1 ++ p.2 = w := by
  induction w with
  | nil => intro p hp; cases hp
  | cons c cs ih =>
      intro p hp
      rw [nlSplitsAsc] at hp
      rcases List.mem_append.mp hp with h | h
      · by_cases hc : c = '\n'
        · rw [if_pos hc] at h
          simp at h
          rw [h, hc]
          rfl
        · rw [if_neg hc] at h
          cases h
      · rcases List.mem_map.mp h with ⟨q, hq, rfl⟩
        simp only [List.cons_append]
        rw [ih q hq]

theorem afterTag_snd_lt (s cap r : List Char) (h : afterTag s = some (cap, r)) :
    r.length < s.length ∨ r.length ≤ s.length := by
  rw [afterTag] at h
  have hm := firstSome_mem _ _ h
  rcases List.mem_map.mp hm with ⟨p, hp, hpe⟩
  have hparts := nlSplitsAsc_parts (s.takeWhile pyWs) p (by
    rw [nlSplits] at hp
    exact List.mem_reverse.mp hp)
  have hlt := contGroup_snd_lt _ _ _ hpe
  have hsum : (s.takeWhile pyWs).length + (s.dropWhile pyWs).length = s.length := by
    have := congrArg List.length (List.takeWhile_append_dropWhile pyWs s)
    rw [List.length_append] at this
    exact this
  have hple : p.2.length ≤ (s.takeWhile pyWs).length := by
    have := congrArg List.length hparts
    rw [List.length_append] at this
    omega
  rw [List.length_append] at hlt
  left
  omega

theorem matchLit_le (p s r : List Char) (h : matchLit p s = some r) :
    r.length ≤ s.length := by
  have := (matchLit_eq_append p s r).mp h
  have hl := congrArg List.length this
  rw [List.length_append] at hl
  omega

theorem dropWhile_le (p : Char → Bool) (s : List Char) :
    (s.dropWhile p).length ≤ s.length :=
  (List.dropWhile_sublist p).length_le

theorem afterName_snd_le (s cap r : List Char) (h : afterName s = some (cap, r)) :
    r.length ≤ s.length := by
  rw [afterName] at h
  split at h
  · cases h
  · split at h
    case _ => cases h
    case _ r2 heq2 =>
      split at h
      case _ => cases h
      case _ r4 heq4 =>
        have h1 := matchLit_le _ _ _ heq2
        have h2 := matchLit_le _ _ _ heq4
        have h3 := dropWhile_le pyWs s
        have h4 := dropWhile_le pyWs r2
        rcases afterTag_snd_lt r4 cap r h with h5 | h5 <;> omega

theorem matchSuffix_le (s r : List Char) (h : matchSuffix s = some r) :
    r.length ≤ s.length := by
  rcases s with _ | ⟨a0, _ | ⟨a1, _ | ⟨a2, _ | ⟨a3, _ | ⟨a4, _ | ⟨a5, _ | ⟨a6, _ | ⟨a7, _ | ⟨a8, rest⟩⟩⟩⟩⟩⟩⟩⟩⟩ <;>
    try cases h
  rw [matchSuffix] at h
  split at h
  · injection h with h'
    subst h'
    simp only [List.length_cons]
    omega
  · cases h

theorem matchAfterName_snd_le (s cap r : List Char)
    (h : matchAfterName s = some (cap, r)) : r.length ≤ s.length := by
  rw [matchAfterName] at h
  split at h
  case _ r' heq =>
    split at h
    case _ out heq2 =>
      injection h with h'
      subst h'
      have h1 := afterName_snd_le r' cap r heq2
      have h2 := matchSuffix_le s r' heq
      omega
    case _ =>
      exact afterName_snd_le s cap r h
  case _ =>
    exact afterName_snd_le s cap r h

theorem tryNameAux_rest_lt (s : List Char) :
    ∀ (acc n cap rest : List Char), tryNameAux acc s = some (n, cap, rest) →
      rest.length < s.length := by
  induction s with
  | nil => intro acc n cap rest h; cases h
  | cons c cs ih =>
      intro acc n cap rest h
      rw [tryNameAux] at h
      split at h
      · split at h
        case _ cap' rest' heq =>
          have hle := matchAfterName_snd_le cs cap' rest' heq
          injection h with h'
          injection h' with h1 h2
          injection h2 with h3 h4
          rw [← h4]
          simp only [List.length_cons]
          omega
        case _ =>
          have := ih (acc ++ [c]) n cap rest h
          simp only [List.length_cons]
          omega
      · cases h

theorem findTalkMatchesF_fuel (f : Nat) :
    ∀ s : List Char, s.length < f → findTalkMatchesF f s = findTalkMatches s := by
  induction f using Nat.strong_induction_on with
  | _ f ih =>
      intro s hf
      cases f with
      | zero => omega
      | succ f' =>
          cases s with
          | nil => rfl
          | cons c cs =>
              rw [findTalkMatchesF]
              conv_rhs => rw [findTalkMatches, findTalkMatchesF]
              rcases htry : tryNameAux [] (c :: cs) with _ | ⟨n, cap, rest⟩
              · have h1 : findTalkMatchesF f' cs = findTalkMatches cs := by
                  apply ih f' (Nat.lt_succ_self f') cs
                  simp only [List.length_cons] at hf
                  omega
                have h2 : findTalkMatchesF (c :: cs).length cs = findTalkMatches cs := by
                  apply ih (c :: cs).length hf cs
                  simp only [List.length_cons]
                  omega
                show findTalkMatchesF f' cs = findTalkMatchesF (c :: cs).length cs
                rw [h1, h2]
              · have hlt := tryNameAux_rest_lt (c :: cs) [] n cap rest htry
                have h1 : findTalkMatchesF f' rest = findTalkMatches rest := by
                  apply ih f' (Nat.lt_succ_self f') rest
                  simp only [List.length_cons] at hf
                  simp only [List.length_cons] at hlt
                  omega
                have h2 : findTalkMatchesF (c :: cs).length rest = findTalkMatches rest := by
                  apply ih (c :: cs).length hf rest
                  omega
                show (n, cap) :: findTalkMatchesF f' rest
                    = (n, cap) :: findTalkMatchesF (c :: cs).length rest
                rw [h1, h2]

theorem findTalkMatches_step (s n cap rest : List Char)
    (htry : tryNameAux [] s = some (n, cap, rest)) :
    findTalkMatches s = (n, cap) :: findTalkMatches rest := by
  cases s with
  | nil => cases htry
  | cons c cs =>
      rw [findTalkMatches, findTalkMatchesF, htry]
      show (n, cap) :: findTalkMatchesF (c :: cs).length rest
          = (n, cap) :: findTalkMatches rest
      congr 1
      apply findTalkMatchesF_fuel
      exact tryNameAux_rest_lt (c :: cs) [] n cap rest htry

theorem findTalkMatches_block (n : List Char) (L : List (List Char))
    (rest : List Char) (hn : goodName n) (hL : goodLines L)
    (hrest : goodRest rest) :
    findTalkMatches (renderBlock n L ++ rest)
      = (n, linesRender L) :: findTalkMatches rest := by
  have htry : tryNameAux [] (renderBlock n L ++ rest)
      = some (n, linesRender L, rest) := by
    have h := tryNameAux_block L rest hL hrest n [] hn.1 hn.2.1 hn.2.2.2
    rw [List.nil_append] at h
    rw [← h]
    congr 1
    rw [renderBlock]
    simp [List.append_assoc]
  exact findTalkMatches_step _ n (linesRender L) rest htry

/-- One findall step on a block whose rendered name carries an optional
collision suffix: the suffix is consumed by the pattern's non-capturing
group, so group 1 is the bare name. -/
theorem findTalkMatches_block_gen (n s : List Char) (L : List (List Char))
    (rest : List Char) (hn : goodName n) (hs : goodSuffix s) (hL : goodLines L)
    (hrest : goodRest rest) :
    findTalkMatches (renderBlock (n ++ s) L ++ rest)
      = (n, linesRender L) :: findTalkMatches rest := by
  rcases goodSuffix_cases s hs with rfl | ⟨ds, rfl, hlen, hhex⟩
  · rw [List.append_nil]
    exact findTalkMatches_block n L rest hn hL hrest
  · have htry : tryNameAux [] (renderBlock (n ++ '_' :: ds) L ++ rest)
        = some (n, linesRender L, rest) := by
      have h := tryNameAux_block_suf L rest ds hL hrest hlen hhex n []
        hn.1 hn.2.1 hn.2.2.2
      rw [List.nil_append] at h
      rw [← h]
      congr 1
      rw [renderBlock]
      simp [List.append_assoc]
    exact findTalkMatches_step _ n (linesRender L) rest htry

/-- All brackets of a string open one of the preserved action tags; on such
strings `style_markup.sub` is the identity. -/
def bracketsOk : List Char → Bool
  | [] => true
  | c :: rest => (if c = '[' then keepTag rest else true) && bracketsOk rest

theorem stripAnsiF_id (s : List Char) : ∀ fuel : Nat, s.length ≤ fuel →
    (∀ c ∈ s, c ≠ '\x1B') → stripAnsiF fuel s = s := by
  induction s with
  | nil => intro fuel _ _; cases fuel <;> rfl
  | cons c cs ih =>
      intro fuel hf hesc
      cases fuel with
      | zero => simp at hf
      | succ f =>
          rw [stripAnsiF, if_neg (hesc c (List.mem_cons_self c cs))]
          rw [ih f (by simp at hf; omega) (fun d hd => hesc d (List.mem_cons_of_mem c hd))]

theorem stripAnsi_id (s : List Char) (h : ∀ c ∈ s, c ≠ '\x1B') :
    stripAnsi s = s :=
  stripAnsiF_id s s.length (le_refl _) h

theorem stripStyleF_id (s : List Char) : ∀ fuel : Nat, s.length ≤ fuel →
    bracketsOk s = true → stripStyleF fuel s = s := by
  induction s with
  | nil => intro fuel _ _; cases fuel <;> rfl
  | cons c cs ih =>
      intro fuel hf hok
      rw [bracketsOk, Bool.and_eq_true] at hok
      cases fuel with
      | zero => simp at hf
      | succ f =>
          have hrec := ih f (by simp at hf; omega) hok.2
          rw [stripStyleF]
          by_cases hc : c = '['
          · have hkt : keepTag cs = true := by
              have := hok.1
              rw [if_pos hc] at this
              exact this
            rw [if_pos hc, if_pos hkt, hrec, hc]
          · rw [if_neg hc, hrec]

theorem stripStyle_id (s : List Char) (h : bracketsOk s = true) :
    stripStyle s = s :=
  stripStyleF_id s s.length (le_refl _) h

theorem bracketsOk_append (xs ys : List Char) (hxs : ∀ c ∈ xs, c ≠ '[') :
    bracketsOk (xs ++ ys) = bracketsOk ys := by
  induction xs with
  | nil => rfl
  | cons c cs ih =>
      rw [List.cons_append, bracketsOk,
        if_neg (hxs c (List.mem_cons_self c cs)),
        ih (fun d hd => hxs d (List.mem_cons_of_mem c hd)), Bool.true_and]

theorem bracketsOk_sep (ys : List Char) :
    bracketsOk (sepChars ++ ys) = bracketsOk ys := rfl

theorem linesRender_no_char (L : List (List Char)) (hL : ∀ l ∈ L, goodLine l)
    (ch : Char) (hch4 : ch = '[' ∨ ch = '\x1B') :
    ∀ c ∈ linesRender L, c ≠ ch := by
  intro c hc
  rw [linesRender] at hc
  rcases List.mem_flatten.mp hc with ⟨seg, hseg, hcseg⟩
  rcases List.mem_map.mp hseg with ⟨l, hl, rfl⟩
  rw [renderLine] at hcseg
  simp only [List.mem_cons, List.mem_append] at hcseg
  rcases hcseg with rfl | rfl | rfl | rfl | hcl | hcl
  · rcases hch4 with rfl | rfl <;> decide
  · rcases hch4 with rfl | rfl <;> decide
  · rcases hch4 with rfl | rfl <;> decide
  · rcases hch4 with rfl | rfl <;> decide
  · intro hcon
    rw [hcon] at hcl
    rcases (hL l hl).2.1 ch hcl with ⟨-, h2, h3⟩
    rcases hch4 with rfl | rfl
    · exact h2 rfl
    · exact h3 rfl
  · simp at hcl
    subst hcl
    rcases hch4 with rfl | rfl <;> decide

theorem name_no_char (n : List Char) (hn : goodName n) :
    ∀ c ∈ n, c ≠ '[' ∧ c ≠ '\x1B' := by
  intro c hc
  rcases hn.2.1 c hc with ha | rfl
  · constructor <;> (intro hcon; rw [hcon] at ha; exact absurd ha (by decide))
  · constructor <;> decide

theorem block_no_esc (n : List Char) (L : List (List Char)) (hn : goodName n)
    (hL : ∀ l ∈ L, goodLine l) : ∀ c ∈ renderBlock n L, c ≠ '\x1B' := by
  intro c hc
  rw [renderBlock] at hc
  rcases List.mem_append.mp hc with hc1 | hc2
  · rcases List.mem_append.mp hc1 with hcn | hcs
    · exact (name_no_char n hn c hcn).2
    · simp only [sepChars, List.mem_cons, List.not_mem_nil, or_false] at hcs
      rcases hcs with rfl|rfl|rfl|rfl|rfl|rfl|rfl|rfl|rfl|rfl|rfl|rfl|rfl|rfl <;> decide
  · exact linesRender_no_char L hL '\x1B' (Or.inr rfl) c hc2

theorem bracketsOk_block (n : List Char) (L : List (List Char)) (ys : List Char)
    (hn : goodName n) (hL : ∀ l ∈ L, goodLine l) :
    bracketsOk (renderBlock n L ++ ys) = bracketsOk ys := by
  rw [renderBlock, List.append_assoc, List.append_assoc]
  rw [bracketsOk_append n _ (fun c hc => (name_no_char n hn c hc).1)]
  rw [bracketsOk_sep]
  exact bracketsOk_append _ ys (linesRender_no_char L hL '[' (Or.inl rfl))

theorem hex_no_char (c : Char) (h : isLowerHexDigit c = true) :
    c ≠ '[' ∧ c ≠ '\x1B' := by
  constructor <;> rintro rfl <;> exact absurd h (by decide)

theorem sufname_no_char (n s : List Char) (hn : goodName n) (hs : goodSuffix s) :
    ∀ c ∈ n ++ s, c ≠ '[' ∧ c ≠ '\x1B' := by
  intro c hc
  rcases List.mem_append.mp hc with hcn | hcs
  · exact name_no_char n hn c hcn
  · rcases goodSuffix_cases s hs with rfl | ⟨ds, rfl, hlen, hhex⟩
    · cases hcs
    · rcases List.mem_cons.mp hcs with rfl | hcd
      · constructor <;> decide
      · exact hex_no_char c (hhex c hcd)

theorem block_no_esc_suf (n s : List Char) (L : List (List Char))
    (hn : goodName n) (hs : goodSuffix s) (hL : ∀ l ∈ L, goodLine l) :
    ∀ c ∈ renderBlock (n ++ s) L, c ≠ '\x1B' := by
  intro c hc
  rw [renderBlock] at hc
  rcases List.mem_append.mp hc with hc1 | hc2
  · rcases List.mem_append.mp hc1 with hcn | hcs
    · exact (sufname_no_char n s hn hs c hcn).2
    · simp only [sepChars, List.mem_cons, List.not_mem_nil, or_false] at hcs
      rcases hcs with rfl|rfl|rfl|rfl|rfl|rfl|rfl|rfl|rfl|rfl|rfl|rfl|rfl|rfl <;> decide
  · exact linesRender_no_char L hL '\x1B' (Or.inr rfl) c hc2

theorem bracketsOk_block_suf (n s : List Char) (L : List (List Char))
    (ys : List Char) (hn : goodName n) (hs : goodSuffix s)
    (hL : ∀ l ∈ L, goodLine l) :
    bracketsOk (renderBlock (n ++ s) L ++ ys) = bracketsOk ys := by
  rw [renderBlock, List.append_assoc, List.append_assoc]
  rw [bracketsOk_append (n ++ s) _ (fun c hc => (sufname_no_char n s hn hs c hc).1)]
  rw [bracketsOk_sep]
  exact bracketsOk_append _ ys (linesRender_no_char L hL '[' (Or.inl rfl))

theorem rdropWs_eq_self (m : List Char)
    (h : ∀ c, m.getLast? = some c → pyWs c = false) : rdropWs m = m := by
  rcases hrev : m.reverse with _ | ⟨b, r⟩
  · have : m = [] := by
      rw [← List.reverse_reverse m, hrev]
      rfl
    rw [this]
    rfl
  · have hb : m.getLast? = some b := by
      rw [← List.head?_reverse, hrev]
      rfl
    rw [rdropWs, hrev, List.dropWhile_cons_of_neg (by simp [h b hb]), ← hrev,
      List.reverse_reverse]

theorem splitOnNl_append (l r : List Char) (hl : ∀ c ∈ l, c ≠ '\n') :
    splitOnNl (l ++ '\n' :: r) = l :: splitOnNl r := by
  induction l with
  | nil =>
      rw [List.nil_append, splitOnNl, if_pos rfl]
  | cons c cs ih =>
      rw [List.cons_append, splitOnNl,
        if_neg (hl c (List.mem_cons_self c cs)),
        ih (fun d hd => hl d (List.mem_cons_of_mem c hd))]

theorem splitOnNl_linesRender (L : List (List Char)) (hL : ∀ l ∈ L, goodLine l) :
    splitOnNl (linesRender L)
      = L.map (fun l => ' ' :: ' ' :: '>' :: ' ' :: l) ++ [[]] := by
  induction L with
  | nil => rfl
  | cons l L' ih =>
      have hshape : linesRender (l :: L')
          = (' ' :: ' ' :: '>' :: ' ' :: l) ++ '\n' :: linesRender L' := by
        rw [linesRender_cons]
        simp [renderLine]
      rw [hshape, splitOnNl_append _ _ (by
        intro c hc
        simp only [List.mem_cons] at hc
        rcases hc with rfl | rfl | rfl | rfl | hcl
        · decide
        · decide
        · decide
        · decide
        · exact ((hL l (List.mem_cons_self l L')).2.1 c hcl).1)]
      rw [ih (fun m hm => hL m (List.mem_cons_of_mem l hm))]
      rfl

theorem pyStrip_marker (l : List Char) (hl : goodLine l) :
    pyStrip (' ' :: ' ' :: '>' :: ' ' :: l) = '>' :: ' ' :: l := by
  obtain ⟨hne, -, -, hlast⟩ := hl
  obtain ⟨a, t, rfl⟩ : ∃ a t, l = a :: t := by
    rcases l with _ | ⟨a, t⟩
    · exact absurd rfl hne
    · exact ⟨a, t, rfl⟩
  rw [pyStrip, List.dropWhile_cons_of_pos (by decide),
    List.dropWhile_cons_of_pos (by decide),
    List.dropWhile_cons_of_neg (by decide)]
  apply rdropWs_eq_self
  intro c hc
  rw [List.getLast?_cons_cons, List.getLast?_cons_cons] at hc
  exact hlast c hc

theorem pyStrip_space_line (l : List Char) (hl : goodLine l) :
    pyStrip (' ' :: l) = l := by
  obtain ⟨hne, -, hhead, hlast⟩ := hl
  obtain ⟨a, t, rfl⟩ : ∃ a t, l = a :: t := by
    rcases l with _ | ⟨a, t⟩
    · exact absurd rfl hne
    · exact ⟨a, t, rfl⟩
  rw [pyStrip, List.dropWhile_cons_of_pos (by decide),
    List.dropWhile_cons_of_neg (by simp [hhead a rfl])]
  apply rdropWs_eq_self
  exact hlast

theorem contentLinesOf_mapped (L : List (List Char))
    (hL : ∀ l ∈ L, goodLine l) :
    contentLinesOf (L.map (fun l => ' ' :: ' ' :: '>' :: ' ' :: l) ++ [[]])
      = L := by
  rw [contentLinesOf, List.filterMap_append]
  have hnil : List.filterMap (fun ln =>
      match pyStrip ln with
      | [] => none
      | c :: restLn => if c = '>' then some (pyStrip restLn)
          else some (c :: restLn)) [([] : List Char)] = [] := rfl
  rw [hnil, List.append_nil, List.filterMap_map]
  induction L with
  | nil => rfl
  | cons l L' ih =>
      rw [List.filterMap_cons]
      have hgl : goodLine l := hL l (List.mem_cons_self l L')
      have hm : pyStrip (' ' :: ' ' :: '>' :: ' ' :: l) = '>' :: ' ' :: l :=
        pyStrip_marker l hgl
      have hcomp : (Function.comp (fun ln =>
          match pyStrip ln with
          | [] => none
          | c :: restLn => if c = '>' then some (pyStrip restLn)
              else some (c :: restLn))
          (fun l => ' ' :: ' ' :: '>' :: ' ' :: l)) l = some l := by
        simp only [Function.comp_apply, hm]
        simp [pyStrip_space_line l hgl]
      rw [hcomp, ih (fun m hm => hL m (List.mem_cons_of_mem l hm))]

theorem joinSpace_head? (l : List Char) (L' : List (List Char)) (hl : l ≠ []) :
    (joinSpace (l :: L')).head? = l.head? := by
  cases L' with
  | nil => rfl
  | cons m ls =>
      obtain ⟨a, t, rfl⟩ : ∃ a t, l = a :: t := by
        rcases l with _ | ⟨a, t⟩
        · exact absurd rfl hl
        · exact ⟨a, t, rfl⟩
      have hjq : joinSpace ((a :: t) :: m :: ls)
          = (a :: t) ++ ' ' :: joinSpace (m :: ls) := by
        rw [joinSpace]
        simp
      rw [hjq]
      rfl

theorem joinSpace_getLast_mem (L : List (List Char)) (hne : ∀ l ∈ L, l ≠ []) :
    ∀ c : Char, (joinSpace L).getLast? = some c → ∃ l ∈ L, l.getLast? = some c := by
  induction L with
  | nil => intro c h; cases h
  | cons l L' ih =>
      intro c h
      cases L' with
      | nil => exact ⟨l, List.mem_cons_self l [], h⟩
      | cons m ls =>
          have hjq : joinSpace (l :: m :: ls) = l ++ ' ' :: joinSpace (m :: ls) := by
            rw [joinSpace]
            simp
          rw [hjq, List.getLast?_append_cons] at h
          have hmne : m ≠ [] := hne m (List.mem_cons_of_mem l (List.mem_cons_self m ls))
          rcases hjs : joinSpace (m :: ls) with _ | ⟨a, t⟩
          · exfalso
            have hh := joinSpace_head? m ls hmne
            rw [hjs] at hh
            obtain ⟨b, t', rfl⟩ : ∃ b t', m = b :: t' := by
              rcases m with _ | ⟨b, t'⟩
              · exact absurd rfl hmne
              · exact ⟨b, t', rfl⟩
            cases hh
          · rw [hjs, List.getLast?_cons_cons] at h
            obtain ⟨l', hl', h'⟩ := ih
              (fun x hx => hne x (List.mem_cons_of_mem l hx)) c (by rw [hjs]; exact h)
            exact ⟨l', List.mem_cons_of_mem l hl', h'⟩

theorem pyStrip_joinSpace (L : List (List Char)) (hgl : goodLines L) :
    pyStrip (joinSpace L) = joinSpace L := by
  apply pyStrip_of_edges
  · intro c hc
    obtain ⟨l, L', rfl⟩ : ∃ l L', L = l :: L' := by
      rcases L with _ | ⟨l, L'⟩
      · exact absurd rfl hgl.1
      · exact ⟨l, L', rfl⟩
    have hgll : goodLine l := hgl.2 l (List.mem_cons_self l L')
    rw [joinSpace_head? l L' hgll.1] at hc
    exact hgll.2.2.1 c hc
  · intro c hc
    obtain ⟨l, hl, h'⟩ := joinSpace_getLast_mem L
      (fun x hx => (hgl.2 x hx).1) c hc
    exact (hgl.2 l hl).2.2.2 c h'

theorem processMatch_block (i : Nat) (n : List Char) (L : List (List Char))
    (hn : goodName n) (hL : goodLines L) (ht : 10 < (joinSpace L).length) :
    processMatch i n (linesRender L) = some ⟨i, n, joinSpace L⟩ := by
  have h1 := splitOnNl_linesRender L hL.2
  have h2 := contentLinesOf_mapped L hL.2
  have h3 := pyStrip_joinSpace L hL
  have hpn : pyStrip n = n := by
    apply pyStrip_of_edges
    · intro c hc
      exact alpha_not_ws c (hn.2.2.1 c hc)
    · intro c hc
      exact alpha_not_ws c (hn.2.2.2 c hc)
  rw [processMatch, h1, h2, h3, if_pos ht, hpn]

/-- C3: a rendered transcript of exactly two agent blocks — each a
`<Name> acts: [TALK]` header, the rendered name optionally carrying the
engine's `_[a-f0-9]\x7b8\x7d` session-collision suffix, followed by indented
`> `-prefixed continuation lines whose joined content exceeds the length
threshold — parses via the fallback path into exactly two records, in
block order, whose agent names are the original block names with the
collision suffix stripped and whose content is that block's continuation
lines joined into one utterance. -/
theorem fallback_roundtrip_two_blocks
    (n₁ n₂ s₁ s₂ : List Char) (L₁ L₂ : List (List Char))
    (hn₁ : goodName n₁) (hn₂ : goodName n₂)
    (hs₁ : goodSuffix s₁) (hs₂ : goodSuffix s₂)
    (hL₁ : goodLines L₁) (hL₂ : goodLines L₂)
    (ht₁ : 10 < (joinSpace L₁).length) (ht₂ : 10 < (joinSpace L₂).length) :
    parse_tinytroupe_formatted_output
        (renderBlock (n₁ ++ s₁) L₁ ++ renderBlock (n₂ ++ s₂) L₂)
      = [⟨1, n₁, joinSpace L₁⟩, ⟨2, n₂, joinSpace L₂⟩] := by
  have hne : renderBlock (n₁ ++ s₁) L₁ ++ renderBlock (n₂ ++ s₂) L₂ ≠ [] := by
    rw [renderBlock]
    obtain ⟨c, n', rfl⟩ : ∃ c n', n₁ = c :: n' := by
      rcases n₁ with _ | ⟨c, n'⟩
      · exact absurd rfl hn₁.1
      · exact ⟨c, n', rfl⟩
    simp
  rw [parse_tinytroupe_formatted_output, if_neg hne]
  have hesc : stripAnsi (renderBlock (n₁ ++ s₁) L₁ ++ renderBlock (n₂ ++ s₂) L₂)
      = renderBlock (n₁ ++ s₁) L₁ ++ renderBlock (n₂ ++ s₂) L₂ := by
    apply stripAnsi_id
    intro c hc
    rcases List.mem_append.mp hc with h | h
    · exact block_no_esc_suf n₁ s₁ L₁ hn₁ hs₁ hL₁.2 c h
    · exact block_no_esc_suf n₂ s₂ L₂ hn₂ hs₂ hL₂.2 c h
  rw [hesc]
  have hok : bracketsOk
      (renderBlock (n₁ ++ s₁) L₁ ++ renderBlock (n₂ ++ s₂) L₂) = true := by
    rw [bracketsOk_block_suf n₁ s₁ L₁ _ hn₁ hs₁ hL₁.2,
      ← List.append_nil (renderBlock (n₂ ++ s₂) L₂),
      bracketsOk_block_suf n₂ s₂ L₂ [] hn₂ hs₂ hL₂.2]
    rfl
  rw [stripStyle_id _ hok]
  have hrest2 : goodRest (renderBlock (n₂ ++ s₂) L₂) := by
    right
    obtain ⟨c, n', hcn⟩ : ∃ c n', n₂ = c :: n' := by
      rcases n₂ with _ | ⟨c, n'⟩
      · exact absurd rfl hn₂.1
      · exact ⟨c, n', rfl⟩
    refine ⟨c, (n' ++ s₂) ++ sepChars ++ linesRender L₂, ?_, ?_⟩
    · rw [renderBlock, hcn]
      simp
    · apply hn₂.2.2.1
      rw [hcn]
      rfl
  rw [findTalkMatches_block_gen n₁ s₁ L₁ _ hn₁ hs₁ hL₁ hrest2]
  have hm2 : findTalkMatches (renderBlock (n₂ ++ s₂) L₂)
      = [(n₂, linesRender L₂)] := by
    have h := findTalkMatches_block_gen n₂ s₂ L₂ [] hn₂ hs₂ hL₂ (Or.inl rfl)
    rw [List.append_nil] at h
    rw [h]
    rfl
  rw [hm2]
  have hp1 := processMatch_block 1 n₁ L₁ hn₁ hL₁ ht₁
  have hp2 := processMatch_block 2 n₂ L₂ hn₂ hL₂ ht₂
  show List.filterMap (fun p => processMatch p.1 p.2.1 p.2.2)
    [(1, (n₁, linesRender L₁)), (2, (n₂, linesRender L₂))]
      = [⟨1, n₁, joinSpace L₁⟩, ⟨2, n₂, joinSpace L₂⟩]
  rw [List.filterMap_cons, hp1]
  rw [List.filterMap_cons, hp2]
  rfl

def wN1 : List Char := "Alice Smith".toList

def wN2 : List Char := "Bob".toList

def wS1 : List Char := "_a1b2c3d4".toList

def wS2 : List Char := []

def wL1 : List (List Char) :=
  ["hello there my friend".toList, "how are you today".toList]

def wL2 : List (List Char) := ["fine thanks a lot today".toList]

theorem fallback_roundtrip_two_blocks_witness :
    (goodName wN1 ∧ goodName wN2 ∧ goodSuffix wS1 ∧ goodSuffix wS2 ∧
      goodLines wL1 ∧ goodLines wL2 ∧
      10 < (joinSpace wL1).length ∧ 10 < (joinSpace wL2).length) ∧
    parse_tinytroupe_formatted_output
        (renderBlock (wN1 ++ wS1) wL1 ++ renderBlock (wN2 ++ wS2) wL2)
      = [⟨1, wN1, joinSpace wL1⟩, ⟨2, wN2, joinSpace wL2⟩] :=
  ⟨⟨by decide, by decide, by decide, by decide, by decide, by decide,
      by decide, by decide⟩,
    fallback_roundtrip_two_blocks wN1 wN2 wS1 wS2 wL1 wL2 (by decide) (by decide)
      (by decide) (by decide) (by decide) (by decide) (by decide) (by decide)⟩
